import Mathlib

/-!
# Verification of the `bv-graph-wasm` directed-graph core

Shallow embedding of `src/bv-graph-wasm/src/graph.rs` and the algorithm
modules `articulation.rs`, `coverage.rs`, `subgraph.rs` into Lean 4,
together with proofs of the specification's claims about them.

Modelling conventions:
* Rust `Vec<T>` becomes `List T`; `Vec::push` is `· ++ [x]`; indexed
  reads use `List.getD` / `List.get?`, indexed writes use `List.set`
  (both match Rust's bounds-checked `get`/indexing given the length
  invariants proved below).
* The `node_index : HashMap<String, usize>` field is not stored
  separately: the code keeps it equal to the map sending each id to the
  position of its first (only) occurrence in `nodes`, so lookups are
  modelled by `List.indexOf?` on `nodes`.
* The `usize::MAX` "no parent" sentinel of the DFS routines is modelled
  as `Option.none` (every real parent is `some v`); the Rust comparison
  `u != parent[v]` with `u < n` coincides with `some u ≠ parent v`.
* Rust's `HashSet` iteration order (in `build_undirected_neighbors`) is
  unspecified; we fix first-insertion order.  All properties proved
  about the DFS outputs are insensitive to that choice where the claim
  is about sets of results.
* JSON round-tripping of `GraphSnapshot` via serde is treated as the
  identity on snapshots (the serde library is outside the repository),
  so `from_json ∘ to_json` is modelled as `from_snapshot ∘ to_snapshot`.
* Recursive DFS routines are given a fuel parameter; the top-level
  entry points pass `node_count + 1`, which dominates the recursion
  depth (each nested call marks a previously unvisited node).
-/

namespace B9S

/-- Embedding of `DiGraph` (graph.rs lines 10–27). -/
structure DiGraph where
  nodes : List String
  adj : List (List Nat)
  rev_adj : List (List Nat)
  edge_count : Nat
  deriving Repr, DecidableEq

namespace DiGraph

/-- `DiGraph::new` (graph.rs line 40). -/
def new : DiGraph := ⟨[], [], [], 0⟩

/-- `DiGraph::node_count` (graph.rs line 97). -/
def node_count (g : DiGraph) : Nat := g.nodes.length

/-- `DiGraph::add_node` (graph.rs line 65): returns the index and the
updated graph.  The `node_index` HashMap lookup is modelled by
membership plus `List.indexOf` on `nodes` (see module header). -/
def add_node (g : DiGraph) (id : String) : Nat × DiGraph :=
  if id ∈ g.nodes then (g.nodes.indexOf id, g)
  else
    (g.nodes.length,
      { nodes := g.nodes ++ [id]
        adj := g.adj ++ [[]]
        rev_adj := g.rev_adj ++ [[]]
        edge_count := g.edge_count })

/-- `add_node`, keeping only the graph. -/
def addNodeG (g : DiGraph) (id : String) : DiGraph := (g.add_node id).2

/-- `DiGraph::add_edge` (graph.rs line 79). -/
def add_edge (g : DiGraph) (f t : Nat) : DiGraph :=
  if g.nodes.length ≤ f ∨ g.nodes.length ≤ t then g
  else if t ∈ g.adj.getD f [] then g
  else
    { g with
      adj := g.adj.set f (g.adj.getD f [] ++ [t])
      rev_adj := g.rev_adj.set t (g.rev_adj.getD t [] ++ [f])
      edge_count := g.edge_count + 1 }

/-- `DiGraph::node_id` (graph.rs line 120). -/
def node_id (g : DiGraph) (idx : Nat) : Option String := g.nodes.get? idx

/-- `DiGraph::node_idx` (graph.rs line 126), HashMap modelled positionally. -/
def node_idx (g : DiGraph) (id : String) : Option Nat :=
  if id ∈ g.nodes then some (g.nodes.indexOf id) else none

/-- `DiGraph::out_degree` (graph.rs line 138). -/
def out_degree (g : DiGraph) (node : Nat) : Nat :=
  match g.adj.get? node with
  | some v => v.length
  | none => 0

/-- `DiGraph::in_degree` (graph.rs line 144). -/
def in_degree (g : DiGraph) (node : Nat) : Nat :=
  match g.rev_adj.get? node with
  | some v => v.length
  | none => 0

/-- `DiGraph::successors_slice` (graph.rs line 442). -/
def successors_slice (g : DiGraph) (node : Nat) : List Nat := g.adj.getD node []

/-- `DiGraph::predecessors_slice` (graph.rs line 447). -/
def predecessors_slice (g : DiGraph) (node : Nat) : List Nat := g.rev_adj.getD node []

/-- `DiGraph::edges` (graph.rs line 452): enumerate `(from, to)` pairs
in forward-adjacency order. -/
def edges (g : DiGraph) : List (Nat × Nat) :=
  g.adj.enum.flatMap fun ft => ft.2.map fun t => (ft.1, t)

/-- `DiGraph::edges_vec` (graph.rs line 460). -/
def edges_vec (g : DiGraph) : List (Nat × Nat) := g.edges

end DiGraph

/-- `GraphSnapshot` (graph.rs line 31). -/
structure GraphSnapshot where
  nodes : List String
  edges : List (Nat × Nat)
  deriving Repr, DecidableEq

/-- `DiGraph::to_json` (graph.rs line 164), at snapshot level (serde
serialisation of the snapshot is the identity in this model). -/
def DiGraph.to_snapshot (g : DiGraph) : GraphSnapshot :=
  ⟨g.nodes, g.edges_vec⟩

/-- `DiGraph::from_json` (graph.rs line 174), at snapshot level: replay
node insertions then edge insertions in snapshot order. -/
def DiGraph.from_snapshot (s : GraphSnapshot) : DiGraph :=
  let g := s.nodes.foldl (fun g id => g.addNodeG id) DiGraph.new
  s.edges.foldl (fun g ft => g.add_edge ft.1 ft.2) g

/-! ## Well-formedness

The invariant maintained by `new` / `add_node` / `add_edge`: adjacency
lists have one entry per node, all referenced indices are in range,
node keys are distinct, adjacency lists are duplicate-free, forward and
reverse adjacency agree, and `edge_count` counts forward entries. -/

/-- Well-formedness invariant of a `DiGraph`, as maintained by the
constructors and mutators.  All quantifiers are bounded, so the
predicate is decidable on concrete graphs. -/
def Wf (g : DiGraph) : Prop :=
  g.adj.length = g.nodes.length ∧
  g.rev_adj.length = g.nodes.length ∧
  g.nodes.Nodup ∧
  (∀ l ∈ g.adj, l.Nodup ∧ ∀ v ∈ l, v < g.nodes.length) ∧
  (∀ l ∈ g.rev_adj, l.Nodup ∧ ∀ v ∈ l, v < g.nodes.length) ∧
  (∀ u < g.nodes.length, ∀ v < g.nodes.length,
      (v ∈ g.adj.getD u [] ↔ u ∈ g.rev_adj.getD v [])) ∧
  g.edge_count = (g.adj.map List.length).sum

instance (g : DiGraph) : Decidable (Wf g) := by
  unfold Wf; infer_instance

theorem wf_new : Wf DiGraph.new := by decide

/-! ### List access helpers -/

lemma getD_append_lt {α} (l l' : List α) (d : α) (i : Nat) (h : i < l.length) :
    (l ++ l').getD i d = l.getD i d := by
  show ((l ++ l').get? i).getD d = (l.get? i).getD d
  rw [List.get?_append h]

lemma getD_append_self {α} (l : List α) (x d : α) :
    (l ++ [x]).getD l.length d = x := by
  show ((l ++ [x]).get? l.length).getD d = x
  simp

lemma getD_append_at {α} (l : List α) (x d : α) (i : Nat) (h : i = l.length) :
    (l ++ [x]).getD i d = x := by
  subst h; exact getD_append_self l x d

lemma nodup_append_singleton {α} {l : List α} {x : α} (h : l.Nodup) (hx : x ∉ l) :
    (l ++ [x]).Nodup := by
  rw [List.nodup_append]
  exact ⟨h, List.nodup_singleton x,
    fun a ha hax => hx ((List.mem_singleton.mp hax) ▸ ha)⟩

lemma getD_set_self {α} (l : List α) (i : Nat) (x d : α) (h : i < l.length) :
    (l.set i x).getD i d = x := by
  show ((l.set i x).get? i).getD d = x
  rw [List.get?_set_eq_of_lt x h]
  rfl

lemma getD_set_ne {α} (l : List α) (i j : Nat) (x d : α) (h : i ≠ j) :
    (l.set i x).getD j d = l.getD j d := by
  show ((l.set i x).get? j).getD d = (l.get? j).getD d
  rw [List.get?_set_ne x l h]

lemma getD_of_length_le {α} (l : List α) (d : α) (i : Nat) (h : l.length ≤ i) :
    l.getD i d = d := by
  show (l.get? i).getD d = d
  rw [List.get?_eq_none.mpr h]
  rfl

lemma mem_getD_nil_iff {l : List (List Nat)} {i v : Nat} :
    v ∈ l.getD i [] ↔ ∃ li, l.get? i = some li ∧ v ∈ li := by
  show v ∈ (l.get? i).getD [] ↔ _
  cases h : l.get? i with
  | none => simp
  | some li => simp

lemma getD_mem_of_lt {α} (l : List α) (d : α) (i : Nat) (h : i < l.length) :
    l.getD i d ∈ l := by
  have : l.get? i = some (l.getD i d) := by
    rw [List.get?_eq_get h]
    show _ = some ((l.get? i).getD d)
    rw [List.get?_eq_get h]
    rfl
  exact List.get?_mem this

lemma sum_map_length_set (l : List (List Nat)) (i t : Nat) (h : i < l.length) :
    ((l.set i (l.getD i [] ++ [t])).map List.length).sum
      = (l.map List.length).sum + 1 := by
  induction l generalizing i with
  | nil => simp at h
  | cons hd tl ih =>
    cases i with
    | zero =>
      show ((hd ++ [t]).length :: _).sum = _
      simp [List.sum_cons]
      omega
    | succ j =>
      have hj : j < tl.length := by simpa using h
      have ih' := ih j hj
      show ((hd :: (tl.set j (tl.getD j [] ++ [t]))).map List.length).sum
        = ((hd :: tl).map List.length).sum + 1
      simp only [List.map_cons, List.sum_cons]
      omega

/-- Characterisation of `DiGraph.edges` membership. -/
lemma mem_edges {g : DiGraph} {u v : Nat} :
    (u, v) ∈ g.edges ↔ v ∈ g.adj.getD u [] := by
  unfold DiGraph.edges
  rw [List.mem_flatMap]
  constructor
  · rintro ⟨⟨i, li⟩, hmem, hp⟩
    rw [List.mem_map] at hp
    obtain ⟨t, ht, heq⟩ := hp
    have hi : i = u := congrArg Prod.fst heq
    have htv : t = v := congrArg Prod.snd heq
    subst hi htv
    have := List.mk_mem_enum_iff_get?.mp hmem
    rw [mem_getD_nil_iff]
    exact ⟨li, this, ht⟩
  · intro hv
    rw [mem_getD_nil_iff] at hv
    obtain ⟨li, hget, hvl⟩ := hv
    exact ⟨(u, li), List.mk_mem_enum_iff_get?.mpr hget,
      List.mem_map.mpr ⟨v, hvl, rfl⟩⟩

/-! ### Preservation of `Wf` by the mutators -/

theorem wf_addNodeG {g : DiGraph} (hw : Wf g) (id : String) :
    Wf (g.addNodeG id) := by
  obtain ⟨hal, hrl, hnd, hadj, hrev, hcons, hcnt⟩ := hw
  unfold DiGraph.addNodeG DiGraph.add_node
  by_cases hm : id ∈ g.nodes
  · simp only [hm, if_pos]
    exact ⟨hal, hrl, hnd, hadj, hrev, hcons, hcnt⟩
  · simp only [hm, if_neg, not_false_iff]
    refine ⟨by simp [hal], by simp [hrl], ?_, ?_, ?_, ?_, by simp [hcnt]⟩
    · simp [List.nodup_append, hnd, hm]
    · intro l hl
      rcases List.mem_append.mp hl with h | h
      · obtain ⟨h1, h2⟩ := hadj l h
        refine ⟨h1, fun v hv => ?_⟩
        have := h2 v hv
        simp only [List.length_append, List.length_cons, List.length_nil]
        omega
      · simp only [List.mem_singleton] at h
        subst h
        exact ⟨List.nodup_nil, by simp⟩
    · intro l hl
      rcases List.mem_append.mp hl with h | h
      · obtain ⟨h1, h2⟩ := hrev l h
        refine ⟨h1, fun v hv => ?_⟩
        have := h2 v hv
        simp only [List.length_append, List.length_cons, List.length_nil]
        omega
      · simp only [List.mem_singleton] at h
        subst h
        exact ⟨List.nodup_nil, by simp⟩
    · intro u hu v hv
      simp only [List.length_append, List.length_cons, List.length_nil] at hu hv
      by_cases huo : u < g.nodes.length
      · by_cases hvo : v < g.nodes.length
        · rw [getD_append_lt _ _ _ _ (by omega : u < g.adj.length),
            getD_append_lt _ _ _ _ (by omega : v < g.rev_adj.length)]
          exact hcons u huo v hvo
        · have hveq : v = g.nodes.length := by omega
          subst hveq
          rw [getD_append_at _ _ _ _ (by omega : g.nodes.length = g.rev_adj.length)]
          constructor
          · intro hmem
            rw [getD_append_lt _ _ _ _ (by omega : u < g.adj.length),
              mem_getD_nil_iff] at hmem
            obtain ⟨li, hget, hvl⟩ := hmem
            have := (hadj li (List.get?_mem hget)).2 _ hvl
            omega
          · intro hmem
            simp at hmem
      · have hueq : u = g.nodes.length := by omega
        subst hueq
        rw [getD_append_at _ _ _ _ (by omega : g.nodes.length = g.adj.length)]
        constructor
        · intro hmem
          simp at hmem
        · intro hmem
          by_cases hvo : v < g.nodes.length
          · rw [getD_append_lt _ _ _ _ (by omega : v < g.rev_adj.length),
              mem_getD_nil_iff] at hmem
            obtain ⟨li, hget, hul⟩ := hmem
            have := (hrev li (List.get?_mem hget)).2 _ hul
            omega
          · have hveq : v = g.nodes.length := by omega
            subst hveq
            rw [getD_append_at _ _ _ _
              (by omega : g.nodes.length = g.rev_adj.length)] at hmem
            simp at hmem

theorem wf_add_edge {g : DiGraph} (hw : Wf g) (f t : Nat) :
    Wf (g.add_edge f t) := by
  obtain ⟨hal, hrl, hnd, hadj, hrev, hcons, hcnt⟩ := hw
  unfold DiGraph.add_edge
  by_cases hb : g.nodes.length ≤ f ∨ g.nodes.length ≤ t
  · simp only [hb, if_pos]
    exact ⟨hal, hrl, hnd, hadj, hrev, hcons, hcnt⟩
  · simp only [hb, if_neg, not_false_iff]
    push_neg at hb
    obtain ⟨hf, ht⟩ := hb
    by_cases hdup : t ∈ g.adj.getD f []
    · simp only [hdup, if_pos]
      exact ⟨hal, hrl, hnd, hadj, hrev, hcons, hcnt⟩
    · simp only [hdup, if_neg, not_false_iff]
      have hfa : f < g.adj.length := hal ▸ hf
      have htr : t < g.rev_adj.length := hrl ▸ ht
      have hfnot : f ∉ g.rev_adj.getD t [] := fun hc => hdup ((hcons f hf t ht).mpr hc)
      refine ⟨by simp [hal], by simp [hrl], hnd, ?_, ?_, ?_, ?_⟩
      · intro l hl
        rcases List.mem_or_eq_of_mem_set hl with h | h
        · exact hadj l h
        · subst h
          have hfm := hadj _ (getD_mem_of_lt g.adj [] f hfa)
          refine ⟨nodup_append_singleton hfm.1 hdup, ?_⟩
          · intro v hv
            rcases List.mem_append.mp hv with h | h
            · exact hfm.2 v h
            · simp only [List.mem_singleton] at h
              subst h; exact ht
      · intro l hl
        rcases List.mem_or_eq_of_mem_set hl with h | h
        · exact hrev l h
        · subst h
          have htm := hrev _ (getD_mem_of_lt g.rev_adj [] t htr)
          refine ⟨nodup_append_singleton htm.1 hfnot, ?_⟩
          · intro v hv
            rcases List.mem_append.mp hv with h | h
            · exact htm.2 v h
            · simp only [List.mem_singleton] at h
              subst h; exact hf
      · intro u hu v hv
        by_cases huf : u = f
        · subst huf
          rw [getD_set_self _ _ _ _ hfa]
          by_cases hvt : v = t
          · subst hvt
            rw [getD_set_self _ _ _ _ htr]
            simp
          · rw [getD_set_ne _ _ _ _ _ (fun hc => hvt hc.symm)]
            rw [List.mem_append, List.mem_singleton]
            constructor
            · rintro (h | h)
              · exact (hcons u hu v hv).mp h
              · exact absurd h hvt
            · intro h
              exact Or.inl ((hcons u hu v hv).mpr h)
        · rw [getD_set_ne _ _ _ _ _ (fun hc => huf hc.symm)]
          by_cases hvt : v = t
          · subst hvt
            rw [getD_set_self _ _ _ _ htr]
            rw [List.mem_append, List.mem_singleton]
            constructor
            · intro h
              exact Or.inl ((hcons u hu v hv).mp h)
            · rintro (h | h)
              · exact (hcons u hu v hv).mpr h
              · exact absurd h huf
          · rw [getD_set_ne _ _ _ _ _ (fun hc => hvt hc.symm)]
            exact hcons u hu v hv
      · show g.edge_count + 1 = _
        rw [sum_map_length_set g.adj f t hfa, hcnt]

/-! ### Graphs built by operation sequences -/

/-- A single mutation of the graph-construction API. -/
inductive GOp
  | node (id : String)
  | edge (f t : Nat)
  deriving Repr, DecidableEq

/-- Apply one mutation. -/
def applyOp (g : DiGraph) : GOp → DiGraph
  | .node id => g.addNodeG id
  | .edge f t => g.add_edge f t

/-- The graph produced by running a sequence of `add_node` / `add_edge`
operations on the empty graph. -/
def build (ops : List GOp) : DiGraph := ops.foldl applyOp DiGraph.new

theorem wf_foldl {g : DiGraph} (hw : Wf g) (ops : List GOp) :
    Wf (ops.foldl applyOp g) := by
  induction ops generalizing g with
  | nil => exact hw
  | cons op rest ih =>
    apply ih
    cases op with
    | node id => exact wf_addNodeG hw id
    | edge f t => exact wf_add_edge hw f t

theorem wf_build (ops : List GOp) : Wf (build ops) := wf_foldl wf_new ops

/-- Concrete example: the 3-node path a→b→c built through the API. -/
def path3 : DiGraph :=
  build [.node "a", .node "b", .node "c", .edge 0 1, .edge 1 2]

/-! ## C9: adjacency-list invariants of constructed graphs -/

/-- C9: after any sequence of `add_node` and `add_edge` operations
starting from the empty graph, forward and reverse adjacency stay
mutually consistent (`v ∈ adj[u] ↔ u ∈ rev_adj[v]`), every adjacency
list is duplicate-free, and `edge_count` equals the total number of
forward-adjacency entries. -/
theorem C9_construction_invariants (ops : List GOp) :
    (∀ u < (build ops).node_count, ∀ v < (build ops).node_count,
        (v ∈ (build ops).successors_slice u ↔ u ∈ (build ops).predecessors_slice v)) ∧
    (∀ l ∈ (build ops).adj, l.Nodup) ∧
    (∀ l ∈ (build ops).rev_adj, l.Nodup) ∧
    (build ops).edge_count = ((build ops).adj.map List.length).sum := by
  obtain ⟨_, _, _, hadj, hrev, hcons, hcnt⟩ := wf_build ops
  exact ⟨hcons, fun l hl => (hadj l hl).1, fun l hl => (hrev l hl).1, hcnt⟩

lemma add_edge_noop_of_mem {g : DiGraph} {f t : Nat} (h : t ∈ g.adj.getD f []) :
    g.add_edge f t = g := by
  unfold DiGraph.add_edge
  by_cases hb : g.nodes.length ≤ f ∨ g.nodes.length ≤ t
  · simp only [hb, if_pos]
  · simp only [hb, if_neg, not_false_iff, h, if_pos]

lemma add_edge_noop_of_oob {g : DiGraph} {f t : Nat}
    (h : g.nodes.length ≤ f ∨ g.nodes.length ≤ t) :
    g.add_edge f t = g := by
  unfold DiGraph.add_edge
  simp only [h, if_pos]

/-! ## C6: `add_edge` is a strict no-op on duplicates and bad indices -/

/-- C6: `add_edge from to` leaves the graph completely unchanged (all
fields, hence nodes, both adjacency lists and the edge count) whenever
the ordered pair is already present or either endpoint is out of range;
it cannot fail in those cases. -/
theorem C6_add_edge_noop (g : DiGraph) (f t : Nat)
    (h : t ∈ g.successors_slice f ∨ g.node_count ≤ f ∨ g.node_count ≤ t) :
    g.add_edge f t = g := by
  rcases h with h | h | h
  · exact add_edge_noop_of_mem h
  · exact add_edge_noop_of_oob (Or.inl h)
  · exact add_edge_noop_of_oob (Or.inr h)

/-- Witness for C6 at concrete inputs: re-adding the existing edge
(0,1) of the path graph, and adding an out-of-range edge, both leave
the graph untouched. -/
theorem C6_add_edge_noop_witness :
    path3.add_edge 0 1 = path3 ∧ path3.add_edge 0 99 = path3 :=
  ⟨C6_add_edge_noop path3 0 1 (Or.inl (by decide)),
   C6_add_edge_noop path3 0 99 (Or.inr (Or.inr (by decide)))⟩

/-! ## C10: read accessors are total on out-of-range indices -/

/-- C10: for any well-formed graph and any index at or beyond
`node_count`, `node_id` returns `none`, the degree accessors return 0,
and the successor/predecessor slices are empty. -/
theorem C10_accessors_total (g : DiGraph) (hw : Wf g) (idx : Nat)
    (h : g.node_count ≤ idx) :
    g.node_id idx = none ∧ g.out_degree idx = 0 ∧ g.in_degree idx = 0 ∧
    g.successors_slice idx = [] ∧ g.predecessors_slice idx = [] := by
  obtain ⟨hal, hrl, -, -, -, -, -⟩ := hw
  have hadjn : g.adj.get? idx = none := List.get?_eq_none.mpr (by
    unfold DiGraph.node_count at h; omega)
  have hrev : g.rev_adj.get? idx = none := List.get?_eq_none.mpr (by
    unfold DiGraph.node_count at h; omega)
  refine ⟨?_, ?_, ?_, ?_, ?_⟩
  · exact List.get?_eq_none.mpr h
  · unfold DiGraph.out_degree
    rw [hadjn]
  · unfold DiGraph.in_degree
    rw [hrev]
  · unfold DiGraph.successors_slice
    show (g.adj.get? idx).getD [] = []
    rw [hadjn]; rfl
  · unfold DiGraph.predecessors_slice
    show (g.rev_adj.get? idx).getD [] = []
    rw [hrev]; rfl

/-- Witness for C10: the path graph with index 7. -/
theorem C10_accessors_total_witness :
    path3.node_id 7 = none ∧ path3.out_degree 7 = 0 ∧ path3.in_degree 7 = 0 ∧
    path3.successors_slice 7 = [] ∧ path3.predecessors_slice 7 = [] :=
  C10_accessors_total path3 (by decide) 7 (by decide)

/-! ## C1: snapshot round trip -/

lemma add_edge_nodes (g : DiGraph) (f t : Nat) : (g.add_edge f t).nodes = g.nodes := by
  unfold DiGraph.add_edge
  split
  · rfl
  · split <;> rfl

lemma add_edge_adj_length (g : DiGraph) (f t : Nat) :
    (g.add_edge f t).adj.length = g.adj.length := by
  unfold DiGraph.add_edge
  split
  · rfl
  · split
    · rfl
    · simp

/-- Replaying `add_node` over a list of fresh, pairwise distinct ids
appends them (with empty adjacency rows) in order. -/
lemma foldl_addNodeG_fresh (ids : List String) :
    ∀ g : DiGraph, (∀ id ∈ ids, id ∉ g.nodes) → ids.Nodup →
    ids.foldl (fun g id => g.addNodeG id) g =
      { nodes := g.nodes ++ ids
        adj := g.adj ++ List.replicate ids.length []
        rev_adj := g.rev_adj ++ List.replicate ids.length []
        edge_count := g.edge_count } := by
  induction ids with
  | nil => intro g _ _; simp
  | cons id rest ih =>
    intro g hfresh hnd
    have hid : id ∉ g.nodes := hfresh id (by simp)
    have step : g.addNodeG id =
        { nodes := g.nodes ++ [id], adj := g.adj ++ [[]],
          rev_adj := g.rev_adj ++ [[]], edge_count := g.edge_count } := by
      unfold DiGraph.addNodeG DiGraph.add_node
      simp [hid]
    show rest.foldl (fun g id => g.addNodeG id) (g.addNodeG id) = _
    rw [step, ih _ ?_ (List.Nodup.of_cons hnd)]
    · simp [List.replicate_succ]
    · intro r hr
      simp only [List.mem_append, List.mem_singleton]
      rintro (h | h)
      · exact hfresh r (by simp [hr]) h
      · subst h
        exact (List.nodup_cons.mp hnd).1 hr

/-- One step of edge replay: membership in a forward-adjacency row of
`add_edge` in terms of the old row. -/
lemma mem_adj_add_edge {g : DiGraph} (hlen : g.adj.length = g.nodes.length)
    (f t u v : Nat) :
    v ∈ (g.add_edge f t).adj.getD u [] ↔
      v ∈ g.adj.getD u [] ∨
        (u = f ∧ v = t ∧ f < g.nodes.length ∧ t < g.nodes.length) := by
  unfold DiGraph.add_edge
  by_cases hb : g.nodes.length ≤ f ∨ g.nodes.length ≤ t
  · simp only [hb, if_pos]
    constructor
    · exact Or.inl
    · rintro (h | ⟨-, -, h1, h2⟩)
      · exact h
      · omega
  · simp only [hb, if_neg, not_false_iff]
    push_neg at hb
    obtain ⟨hf, ht⟩ := hb
    by_cases hdup : t ∈ g.adj.getD f []
    · simp only [hdup, if_pos]
      constructor
      · exact Or.inl
      · rintro (h | ⟨h1, h2, -, -⟩)
        · exact h
        · subst h1 h2; exact hdup
    · simp only [hdup, if_neg, not_false_iff]
      by_cases huf : u = f
      · subst huf
        show v ∈ (g.adj.set u _).getD u [] ↔ _
        rw [getD_set_self _ _ _ _ (by omega)]
        rw [List.mem_append, List.mem_singleton]
        constructor
        · rintro (h | h)
          · exact Or.inl h
          · exact Or.inr ⟨rfl, h, hf, ht⟩
        · rintro (h | ⟨-, h2, -, -⟩)
          · exact Or.inl h
          · exact Or.inr h2
      · show v ∈ (g.adj.set f _).getD u [] ↔ _
        rw [getD_set_ne _ _ _ _ _ (fun hc => huf hc.symm)]
        constructor
        · exact Or.inl
        · rintro (h | ⟨h1, -, -, -⟩)
          · exact h
          · exact absurd h1 huf

/-- Replay of a list of edges, as done by `from_snapshot`. -/
def addEdges (g : DiGraph) (l : List (Nat × Nat)) : DiGraph :=
  l.foldl (fun g ft => g.add_edge ft.1 ft.2) g

lemma addEdges_nodes (l : List (Nat × Nat)) :
    ∀ g : DiGraph, (addEdges g l).nodes = g.nodes := by
  induction l with
  | nil => intro g; rfl
  | cons e rest ih =>
    intro g
    show (addEdges (g.add_edge e.1 e.2) rest).nodes = _
    rw [ih, add_edge_nodes]

lemma addEdges_adj_length (l : List (Nat × Nat)) :
    ∀ g : DiGraph, (addEdges g l).adj.length = g.adj.length := by
  induction l with
  | nil => intro g; rfl
  | cons e rest ih =>
    intro g
    show (addEdges (g.add_edge e.1 e.2) rest).adj.length = _
    rw [ih, add_edge_adj_length]

/-- Membership in a forward-adjacency row after replaying a whole edge
list. -/
lemma mem_adj_addEdges (l : List (Nat × Nat)) :
    ∀ g : DiGraph, g.adj.length = g.nodes.length → ∀ u v : Nat,
    (v ∈ (addEdges g l).adj.getD u [] ↔
      v ∈ g.adj.getD u [] ∨
        ((u, v) ∈ l ∧ u < g.nodes.length ∧ v < g.nodes.length)) := by
  induction l with
  | nil => intro g _ u v; simp [addEdges]
  | cons e rest ih =>
    intro g hlen u v
    have hlen' : (g.add_edge e.1 e.2).adj.length = (g.add_edge e.1 e.2).nodes.length := by
      rw [add_edge_adj_length, add_edge_nodes]; exact hlen
    show v ∈ (addEdges (g.add_edge e.1 e.2) rest).adj.getD u [] ↔ _
    rw [ih _ hlen', add_edge_nodes, mem_adj_add_edge hlen]
    constructor
    · rintro ((h | ⟨h1, h2, h3, h4⟩) | ⟨h1, h2, h3⟩)
      · exact Or.inl h
      · subst h1 h2
        exact Or.inr ⟨by simp, h3, h4⟩
      · exact Or.inr ⟨by simp [h1], h2, h3⟩
    · rintro (h | ⟨h1, h2, h3⟩)
      · exact Or.inl (Or.inl h)
      · rcases List.mem_cons.mp h1 with h | h
        · have he1 : u = e.1 := congrArg Prod.fst h
          have he2 : v = e.2 := congrArg Prod.snd h
          exact Or.inl (Or.inr ⟨he1, he2, he1 ▸ h2, he2 ▸ h3⟩)
        · exact Or.inr ⟨h, h2, h3⟩

/-- Edges of a well-formed graph have in-range endpoints. -/
lemma mem_edges_lt {g : DiGraph} (hw : Wf g) {u v : Nat}
    (h : (u, v) ∈ g.edges) : u < g.nodes.length ∧ v < g.nodes.length := by
  obtain ⟨hal, -, -, hadj, -, -, -⟩ := hw
  rw [mem_edges, mem_getD_nil_iff] at h
  obtain ⟨li, hget, hvl⟩ := h
  refine ⟨?_, (hadj li (List.get?_mem hget)).2 v hvl⟩
  by_contra hc
  push_neg at hc
  rw [List.get?_eq_none.mpr (by omega)] at hget
  exact Option.noConfusion hget

/-- C1: exporting a well-formed graph to a snapshot and re-importing it
(`from_json(to_json(g))`, modelled at snapshot level) yields a graph
with the same node keys at the same indices and the same edge set. -/
theorem C1_snapshot_roundtrip (g : DiGraph) (hw : Wf g) :
    (DiGraph.from_snapshot g.to_snapshot).nodes = g.nodes ∧
    ∀ e : Nat × Nat,
      (e ∈ (DiGraph.from_snapshot g.to_snapshot).edges ↔ e ∈ g.edges) := by
  have hnd : g.nodes.Nodup := hw.2.2.1
  have hbase := foldl_addNodeG_fresh g.nodes DiGraph.new (by simp [DiGraph.new]) hnd
  have hg' : DiGraph.from_snapshot g.to_snapshot =
      addEdges
        { nodes := g.nodes
          adj := List.replicate g.nodes.length []
          rev_adj := List.replicate g.nodes.length []
          edge_count := 0 } g.edges := by
    unfold DiGraph.from_snapshot DiGraph.to_snapshot DiGraph.edges_vec
    rw [hbase]
    simp [DiGraph.new, addEdges]
  rw [hg']
  set g0 : DiGraph :=
    { nodes := g.nodes
      adj := List.replicate g.nodes.length []
      rev_adj := List.replicate g.nodes.length []
      edge_count := 0 } with hg0
  have hlen0 : g0.adj.length = g0.nodes.length := by simp [hg0]
  constructor
  · rw [addEdges_nodes]
  · rintro ⟨u, v⟩
    rw [mem_edges, mem_adj_addEdges g.edges g0 hlen0 u v]
    have hrep : g0.adj.getD u [] = [] := by
      by_cases hu : u < g.nodes.length
      · show (List.replicate g.nodes.length ([] : List Nat)).getD u [] = []
        show ((List.replicate g.nodes.length ([] : List Nat)).get? u).getD [] = []
        rw [List.get?_eq_get (by simpa using hu)]
        simp
      · exact getD_of_length_le _ _ _ (by simpa using Nat.le_of_not_lt hu)
    rw [hrep]
    simp only [List.not_mem_nil, false_or]
    constructor
    · rintro ⟨h, -, -⟩
      exact h
    · intro h
      obtain ⟨h1, h2⟩ := mem_edges_lt hw h
      exact ⟨h, h1, h2⟩

/-- Witness for C1: the concrete path graph round-trips. -/
theorem C1_snapshot_roundtrip_witness :
    (DiGraph.from_snapshot path3.to_snapshot).nodes = path3.nodes ∧
    ((0, 1) ∈ (DiGraph.from_snapshot path3.to_snapshot).edges ↔ (0, 1) ∈ path3.edges) :=
  ⟨(C1_snapshot_roundtrip path3 (by decide)).1,
   (C1_snapshot_roundtrip path3 (by decide)).2 (0, 1)⟩

/-! ## BFS reachability (`subgraph.rs`, `reachable_from` / `reachable_to`)

The Rust BFS keeps `visited : Vec<bool>`, `result : Vec<usize>` and a
`VecDeque` queue.  We embed the loop generically over the neighbour
function (`successors_slice` for `reachable_from`, `predecessors_slice`
for `reachable_to` — the two Rust functions are identical except for
that access).  Rust indexes `visited[w]` unchecked; on a well-formed
graph every adjacency entry is `< n`, and the model skips an
out-of-range `w` (where Rust would panic). -/

structure BfsSt where
  visited : List Bool
  result : List Nat
  queue : List Nat
  deriving Repr

/-- Body of the inner `for &w in nbrs(v)` loop. -/
def bfsStep (st : BfsSt) (w : Nat) : BfsSt :=
  if w < st.visited.length ∧ st.visited.getD w false = false then
    ⟨st.visited.set w true, st.result ++ [w], st.queue ++ [w]⟩
  else st

lemma count_false_set_true (vis : List Bool) (w : Nat) (hw : w < vis.length)
    (hv : vis.getD w false = false) :
    (vis.set w true).count false + 1 = vis.count false := by
  induction vis generalizing w with
  | nil => simp at hw
  | cons b tl ih =>
    cases w with
    | zero =>
      have hb : b = false := hv
      subst hb
      simp [List.count_cons]
    | succ j =>
      have hj : j < tl.length := by simpa using hw
      have hv' : tl.getD j false = false := hv
      show ((b :: tl.set j true).count false) + 1 = _
      simp only [List.count_cons]
      have := ih j hj hv'
      omega

lemma bfsStep_pos {st : BfsSt} {w : Nat}
    (h : w < st.visited.length ∧ st.visited.getD w false = false) :
    bfsStep st w = ⟨st.visited.set w true, st.result ++ [w], st.queue ++ [w]⟩ :=
  if_pos h

lemma bfsStep_neg {st : BfsSt} {w : Nat}
    (h : ¬(w < st.visited.length ∧ st.visited.getD w false = false)) :
    bfsStep st w = st :=
  if_neg h

/-- The inner fold can only shrink the unvisited count, and each queue
append marks one previously unvisited node. -/
lemma bfsFold_measure (ws : List Nat) :
    ∀ st : BfsSt,
      (ws.foldl bfsStep st).visited.count false ≤ st.visited.count false ∧
      (ws.foldl bfsStep st).queue.length + (ws.foldl bfsStep st).visited.count false
        ≤ st.queue.length + st.visited.count false := by
  induction ws with
  | nil => intro st; exact ⟨le_refl _, le_refl _⟩
  | cons w rest ih =>
    intro st
    rw [List.foldl_cons]
    by_cases hc : w < st.visited.length ∧ st.visited.getD w false = false
    · rw [bfsStep_pos hc]
      obtain ⟨h1, h2⟩ := ih ⟨st.visited.set w true, st.result ++ [w], st.queue ++ [w]⟩
      have hcnt := count_false_set_true st.visited w hc.1 hc.2
      simp only [List.length_append, List.length_cons, List.length_nil] at h1 h2 ⊢
      constructor
      · omega
      · omega
    · rw [bfsStep_neg hc]
      exact ih st

/-- The BFS `while let Some(v) = queue.pop_front()` loop, returning the
final state. -/
def bfsRun (nbrs : Nat → List Nat) (st : BfsSt) : BfsSt :=
  match h : st.queue with
  | [] => st
  | v :: rest =>
      bfsRun nbrs ((nbrs v).foldl bfsStep ⟨st.visited, st.result, rest⟩)
termination_by (st.visited.count false, st.queue.length)
decreasing_by
  obtain ⟨hm1, hm2⟩ := bfsFold_measure (nbrs v) ⟨st.visited, st.result, rest⟩
  dsimp only at hm1 hm2
  rw [h]
  simp only [List.length_cons]
  rcases Nat.lt_or_ge
      (((nbrs v).foldl bfsStep ⟨st.visited, st.result, rest⟩).visited.count false)
      (st.visited.count false) with hlt | hge
  · exact Prod.Lex.left _ _ hlt
  · have heq : (((nbrs v).foldl bfsStep ⟨st.visited, st.result, rest⟩).visited.count false)
        = st.visited.count false := le_antisymm hm1 hge
    rw [heq]
    exact Prod.Lex.right _ (by omega)

/-- `reachable_from` (subgraph.rs line 78). -/
def DiGraph.reachable_from (g : DiGraph) (source : Nat) : List Nat :=
  if g.nodes.length ≤ source then []
  else
    (bfsRun g.successors_slice
      ⟨(List.replicate g.nodes.length false).set source true, [source], [source]⟩).result

/-- `reachable_to` (subgraph.rs line 109): identical BFS over the
reverse adjacency. -/
def DiGraph.reachable_to (g : DiGraph) (target : Nat) : List Nat :=
  if g.nodes.length ≤ target then []
  else
    (bfsRun g.predecessors_slice
      ⟨(List.replicate g.nodes.length false).set target true, [target], [target]⟩).result

/-- Reachability by repeatedly following the neighbour function. -/
def Reaches (nbrs : Nat → List Nat) (s v : Nat) : Prop :=
  Relation.ReflTransGen (fun a b => b ∈ nbrs a) s v

lemma getD_replicate {α} (n i : Nat) (a : α) :
    (List.replicate n a).getD i a = a := by
  by_cases h : i < n
  · show ((List.replicate n a).get? i).getD a = a
    rw [List.get?_eq_get (by simpa using h)]
    simp
  · exact getD_of_length_le _ _ _ (by simpa using Nat.le_of_not_lt h)

lemma bfsRun_nil {nbrs : Nat → List Nat} {st : BfsSt} (h : st.queue = []) :
    bfsRun nbrs st = st := by
  unfold bfsRun
  split
  · rfl
  · next v rest hq => rw [h] at hq; exact absurd hq (by simp)

lemma bfsRun_cons {nbrs : Nat → List Nat} {st : BfsSt} {v : Nat} {rest : List Nat}
    (h : st.queue = v :: rest) :
    bfsRun nbrs st = bfsRun nbrs ((nbrs v).foldl bfsStep ⟨st.visited, st.result, rest⟩) := by
  conv_lhs => rw [bfsRun.eq_def]
  split
  · next hq => rw [h] at hq; exact absurd hq (by simp)
  · next v' rest' hq =>
      rw [h] at hq
      have hv : v' = v := (List.cons.injEq .. ▸ hq).1.symm
      have hr : rest' = rest := (List.cons.injEq .. ▸ hq).2.symm
      rw [hv, hr]

/-! Fold facts used to re-establish the BFS loop invariant. -/

lemma bfsFold_vlen (ws : List Nat) :
    ∀ st : BfsSt, (ws.foldl bfsStep st).visited.length = st.visited.length := by
  induction ws with
  | nil => intro st; rfl
  | cons w rest ih =>
    intro st
    rw [List.foldl_cons]
    rw [ih]
    unfold bfsStep
    split
    · simp
    · rfl

lemma bfsFold_mono (ws : List Nat) :
    ∀ st : BfsSt, ∀ x, st.visited.getD x false = true →
      (ws.foldl bfsStep st).visited.getD x false = true := by
  induction ws with
  | nil => intro st x h; exact h
  | cons w rest ih =>
    intro st x h
    rw [List.foldl_cons]
    apply ih
    unfold bfsStep
    split
    · next hc =>
        show (st.visited.set w true).getD x false = true
        by_cases hxw : x = w
        · subst hxw
          rw [getD_set_self _ _ _ _ hc.1]
        · rw [getD_set_ne _ _ _ _ _ (fun hc2 => hxw hc2.symm)]
          exact h
    · exact h

lemma bfsFold_queue_ext (ws : List Nat) :
    ∀ st : BfsSt, ∃ ext : List Nat, (ws.foldl bfsStep st).queue = st.queue ++ ext := by
  induction ws with
  | nil => intro st; exact ⟨[], by simp⟩
  | cons w rest ih =>
    intro st
    rw [List.foldl_cons]
    obtain ⟨ext, hext⟩ := ih (bfsStep st w)
    unfold bfsStep at hext ⊢
    split at hext
    · next hc =>
        rw [if_pos hc]
        exact ⟨w :: ext, by simpa using hext⟩
    · next hc =>
        rw [if_neg hc]
        exact ⟨ext, hext⟩

lemma bfsFold_marks (ws : List Nat) :
    ∀ st : BfsSt, ∀ w ∈ ws, w < st.visited.length →
      (ws.foldl bfsStep st).visited.getD w false = true := by
  induction ws with
  | nil => intro st w hw; simp at hw
  | cons w0 rest ih =>
    intro st w hw hlt
    rw [List.foldl_cons]
    rcases List.mem_cons.mp hw with h | h
    · subst h
      by_cases hvis : st.visited.getD w false = true
      · exact bfsFold_mono rest (bfsStep st w) w (by
          unfold bfsStep
          split
          · next hc => exact absurd hc.2 (by rw [hvis]; simp)
          · exact hvis)
      · have hc : w < st.visited.length ∧ st.visited.getD w false = false :=
          ⟨hlt, by revert hvis; cases st.visited.getD w false <;> simp⟩
        apply bfsFold_mono
        rw [bfsStep_pos hc]
        show (st.visited.set w true).getD w false = true
        rw [getD_set_self _ _ _ _ hc.1]
    · apply ih (bfsStep st w0) w h
      unfold bfsStep
      split
      · simpa using hlt
      · exact hlt

lemma bfsFold_new_in_queue (ws : List Nat) :
    ∀ st : BfsSt, ∀ x, (ws.foldl bfsStep st).visited.getD x false = true →
      st.visited.getD x false = true ∨ x ∈ (ws.foldl bfsStep st).queue := by
  induction ws with
  | nil => intro st x h; exact Or.inl h
  | cons w rest ih =>
    intro st x h
    rw [List.foldl_cons] at h ⊢
    rcases ih (bfsStep st w) x h with h1 | h1
    · unfold bfsStep at h1
      split at h1
      · next hc =>
          by_cases hxw : x = w
          · subst hxw
            right
            obtain ⟨ext, hext⟩ := bfsFold_queue_ext rest (bfsStep st x)
            rw [hext, bfsStep_pos hc]
            simp
          · left
            rw [getD_set_ne _ _ _ _ _ (fun hc2 => hxw hc2.symm)] at h1
            exact h1
      · exact Or.inl h1
    · exact Or.inr h1

lemma bfsFold_result (ws : List Nat) :
    ∀ st : BfsSt,
      (∀ x, x ∈ st.result ↔ st.visited.getD x false = true) →
      ∀ x, x ∈ (ws.foldl bfsStep st).result ↔
        (ws.foldl bfsStep st).visited.getD x false = true := by
  induction ws with
  | nil => intro st h; exact h
  | cons w rest ih =>
    intro st h
    rw [List.foldl_cons]
    apply ih
    intro x
    unfold bfsStep
    split
    · next hc =>
        show x ∈ st.result ++ [w] ↔ (st.visited.set w true).getD x false = true
        rw [List.mem_append, List.mem_singleton]
        by_cases hxw : x = w
        · subst hxw
          rw [getD_set_self _ _ _ _ hc.1]
          simp
        · rw [getD_set_ne _ _ _ _ _ (fun hc2 => hxw hc2.symm)]
          rw [h x]
          simp [hxw]
    · exact h x

lemma bfsFold_sound (nbrs : Nat → List Nat) (s : Nat) (ws : List Nat) :
    ∀ st : BfsSt,
      (∀ w ∈ ws, Reaches nbrs s w) →
      (∀ x, st.visited.getD x false = true → Reaches nbrs s x) →
      ∀ x, (ws.foldl bfsStep st).visited.getD x false = true → Reaches nbrs s x := by
  induction ws with
  | nil => intro st _ h x hx; exact h x hx
  | cons w rest ih =>
    intro st hws h x hx
    rw [List.foldl_cons] at hx
    refine ih (bfsStep st w) (fun w' hw' => hws w' (by simp [hw'])) ?_ x hx
    intro y hy
    unfold bfsStep at hy
    split at hy
    · next hc =>
        by_cases hyw : y = w
        · subst hyw
          exact hws y (by simp)
        · rw [getD_set_ne _ _ _ _ _ (fun hc2 => hyw hc2.symm)] at hy
          exact h y hy
    · exact h y hy

lemma bfsFold_queue_vis (ws : List Nat) :
    ∀ st : BfsSt,
      (∀ x ∈ st.queue, st.visited.getD x false = true) →
      ∀ x ∈ (ws.foldl bfsStep st).queue,
        (ws.foldl bfsStep st).visited.getD x false = true := by
  induction ws with
  | nil => intro st h; exact h
  | cons w rest ih =>
    intro st h
    rw [List.foldl_cons]
    apply ih
    intro x hx
    unfold bfsStep at hx ⊢
    split at hx
    · next hc =>
        rw [if_pos hc]
        show (st.visited.set w true).getD x false = true
        rcases List.mem_append.mp hx with h1 | h1
        · by_cases hxw : x = w
          · subst hxw
            rw [getD_set_self _ _ _ _ hc.1]
          · rw [getD_set_ne _ _ _ _ _ (fun hc2 => hxw hc2.symm)]
            exact h x h1
        · rw [List.mem_singleton] at h1
          subst h1
          rw [getD_set_self _ _ _ _ hc.1]
    · rw [if_neg (by assumption)]
      exact h x hx

/-- Loop invariant for the BFS: the visited array has the right length,
the source is visited, everything visited is reachable, the result list
enumerates the visited set, queued nodes are visited, and every
processed (visited, dequeued) node has all in-range neighbours
visited. -/
def BfsInv (nbrs : Nat → List Nat) (n s : Nat) (st : BfsSt) : Prop :=
  st.visited.length = n ∧
  st.visited.getD s false = true ∧
  (∀ x, st.visited.getD x false = true → Reaches nbrs s x) ∧
  (∀ x, x ∈ st.result ↔ st.visited.getD x false = true) ∧
  (∀ x ∈ st.queue, st.visited.getD x false = true) ∧
  (∀ x, st.visited.getD x false = true → x ∉ st.queue →
     ∀ w ∈ nbrs x, w < n → st.visited.getD w false = true)

theorem bfsRun_inv (nbrs : Nat → List Nat) (n s : Nat) (st : BfsSt)
    (hinv : BfsInv nbrs n s st) :
    BfsInv nbrs n s (bfsRun nbrs st) ∧ (bfsRun nbrs st).queue = [] := by
  induction st using bfsRun.induct nbrs with
  | case1 st hq => rw [bfsRun_nil hq]; exact ⟨hinv, hq⟩
  | case2 st v rest hq ih =>
    rw [bfsRun_cons hq]
    apply ih
    obtain ⟨hlen, hsrc, hsound, hres, hqvis, hclosed⟩ := hinv
    have hvvis : st.visited.getD v false = true := hqvis v (by rw [hq]; simp)
    have hvreach : Reaches nbrs s v := hsound v hvvis
    have hwreach : ∀ w ∈ nbrs v, Reaches nbrs s w := fun w hw =>
      Relation.ReflTransGen.tail hvreach hw
    set st1 : BfsSt := ⟨st.visited, st.result, rest⟩ with hst1
    refine ⟨?_, ?_, ?_, ?_, ?_, ?_⟩
    · rw [bfsFold_vlen]
      exact hlen
    · exact bfsFold_mono _ st1 s hsrc
    · exact bfsFold_sound nbrs s _ st1 hwreach hsound
    · exact bfsFold_result _ st1 hres
    · exact bfsFold_queue_vis _ st1 (fun x hx => hqvis x (by rw [hq]; simp [hst1] at hx; simp [hx]))
    · intro x hx hxq w hw hwn
      obtain ⟨ext, hext⟩ := bfsFold_queue_ext (nbrs v) st1
      rcases bfsFold_new_in_queue (nbrs v) st1 x hx with hold | hnew
      · by_cases hxv : x = v
        · subst hxv
          exact bfsFold_marks (nbrs x) st1 w hw (by rw [hst1]; show w < st.visited.length; omega)
        · have hxnotq : x ∉ st.queue := by
            rw [hq]
            intro hc
            rcases List.mem_cons.mp hc with h | h
            · exact hxv h
            · exact hxq (by rw [hext]; exact List.mem_append.mpr (Or.inl h))
          exact bfsFold_mono _ st1 w (hclosed x hold hxnotq w hw hwn)
      · exact absurd hnew hxq

/-- Full correctness of the generic BFS: starting from the standard
initial state at an in-range source, the result enumerates exactly the
reachable nodes. -/
theorem bfsRun_correct (nbrs : Nat → List Nat) (n s : Nat)
    (hn : ∀ x, ∀ w ∈ nbrs x, w < n) (hs : s < n) :
    ∀ v, v ∈ (bfsRun nbrs ⟨(List.replicate n false).set s true, [s], [s]⟩).result ↔
      Reaches nbrs s v := by
  have hrep : ∀ x, x ≠ s → ((List.replicate n false).set s true).getD x false = false := by
    intro x hx
    rw [getD_set_ne _ _ _ _ _ (fun hc => hx hc.symm)]
    exact getD_replicate n x false
  have hinit : BfsInv nbrs n s ⟨(List.replicate n false).set s true, [s], [s]⟩ := by
    refine ⟨by simp, ?_, ?_, ?_, ?_, ?_⟩
    · show ((List.replicate n false).set s true).getD s false = true
      rw [getD_set_self _ _ _ _ (by simpa using hs)]
    · intro x hx
      by_cases hxs : x = s
      · subst hxs; exact Relation.ReflTransGen.refl
      · rw [show (⟨(List.replicate n false).set s true, [s], [s]⟩ : BfsSt).visited
            = (List.replicate n false).set s true from rfl, hrep x hxs] at hx
        exact absurd hx (by simp)
    · intro x
      show x ∈ [s] ↔ _
      rw [List.mem_singleton]
      constructor
      · intro h; subst h
        rw [getD_set_self _ _ _ _ (by simpa using hs)]
      · intro h
        by_contra hxs
        rw [hrep x hxs] at h
        exact absurd h (by simp)
    · intro x hx
      rw [List.mem_singleton] at hx
      subst hx
      rw [getD_set_self _ _ _ _ (by simpa using hs)]
    · intro x hx hxq
      exfalso
      apply hxq
      show x ∈ [s]
      rw [List.mem_singleton]
      by_contra hxs
      rw [hrep x hxs] at hx
      exact absurd hx (by simp)
  obtain ⟨⟨hlen, hsrc, hsound, hres, hqvis, hclosed⟩, hqnil⟩ :=
    bfsRun_inv nbrs n s _ hinit
  intro v
  rw [hres v]
  constructor
  · exact hsound v
  · intro hreach
    induction hreach with
    | refl => exact hsrc
    | tail hab hbc ih =>
        next b c =>
          exact hclosed b ih (by rw [hqnil]; simp) c hbc (hn b c hbc)

/-- C7: for a well-formed graph, `reachable_from` returns exactly the
nodes reachable from the source by following successor edges (the
source included), `reachable_to` exactly those reaching the target via
predecessor edges, and an out-of-range start yields the empty list. -/
theorem C7_reachability (g : DiGraph) (hw : Wf g) (s : Nat) :
    (g.node_count ≤ s → g.reachable_from s = [] ∧ g.reachable_to s = []) ∧
    (s < g.node_count →
      (∀ v, v ∈ g.reachable_from s ↔ Reaches g.successors_slice s v) ∧
      (∀ v, v ∈ g.reachable_to s ↔ Reaches g.predecessors_slice s v)) := by
  obtain ⟨hal, hrl, -, hadj, hrev, -, -⟩ := hw
  constructor
  · intro h
    unfold DiGraph.node_count at h
    unfold DiGraph.reachable_from DiGraph.reachable_to
    rw [if_pos h, if_pos h]
    exact ⟨rfl, rfl⟩
  · intro h
    have hns : ∀ x, ∀ w ∈ g.successors_slice x, w < g.nodes.length := by
      intro x w hwx
      unfold DiGraph.successors_slice at hwx
      rw [mem_getD_nil_iff] at hwx
      obtain ⟨li, hget, hwl⟩ := hwx
      exact (hadj li (List.get?_mem hget)).2 w hwl
    have hnp : ∀ x, ∀ w ∈ g.predecessors_slice x, w < g.nodes.length := by
      intro x w hwx
      unfold DiGraph.predecessors_slice at hwx
      rw [mem_getD_nil_iff] at hwx
      obtain ⟨li, hget, hwl⟩ := hwx
      exact (hrev li (List.get?_mem hget)).2 w hwl
    constructor
    · intro v
      unfold DiGraph.reachable_from
      rw [if_neg (by unfold DiGraph.node_count at h; omega)]
      exact bfsRun_correct g.successors_slice g.nodes.length s hns h v
    · intro v
      unfold DiGraph.reachable_to
      rw [if_neg (by unfold DiGraph.node_count at h; omega)]
      exact bfsRun_correct g.predecessors_slice g.nodes.length s hnp h v

/-- Witness for C7: the path graph at source 0 (in range) — and the
conclusion is a closed instance of the theorem. -/
theorem C7_reachability_witness :
    (path3.node_count ≤ 0 → path3.reachable_from 0 = [] ∧ path3.reachable_to 0 = []) ∧
    (0 < path3.node_count →
      (∀ v, v ∈ path3.reachable_from 0 ↔ Reaches path3.successors_slice 0 v) ∧
      (∀ v, v ∈ path3.reachable_to 0 ↔ Reaches path3.predecessors_slice 0 v)) :=
  C7_reachability path3 (by decide) 0

/-! ## Subgraph extraction (`subgraph.rs`, `extract_subgraph`)

The Rust function first loops over `node_indices`, adding each in-range
node to the new graph and recording its old→new index in a `HashMap`
(modelled as a point-wise-updated `Nat → Option Nat`), then loops over
`node_indices` again replaying every successor edge whose endpoints
were both retained. -/

/-- Body of the node loop (subgraph.rs lines 34–41). -/
def sgNodeStep (graph : DiGraph) (acc : (Nat → Option Nat) × DiGraph)
    (old_idx : Nat) : (Nat → Option Nat) × DiGraph :=
  if old_idx < graph.nodes.length then
    match graph.node_id old_idx with
    | some id =>
        let r := acc.2.add_node id
        (fun k => if k = old_idx then some r.1 else acc.1 k, r.2)
    | none => acc
  else acc

/-- The node loop of `extract_subgraph`. -/
def sgAddNodes (graph : DiGraph) (node_indices : List Nat) :
    (Nat → Option Nat) × DiGraph :=
  node_indices.foldl (sgNodeStep graph) (fun _ => none, DiGraph.new)

/-- Body of the inner edge loop (subgraph.rs lines 46–50). -/
def sgInnerStep (index_map : Nat → Option Nat) (new_from : Nat)
    (ng : DiGraph) (old_to : Nat) : DiGraph :=
  match index_map old_to with
  | some new_to => ng.add_edge new_from new_to
  | none => ng

/-- Body of the outer edge loop (subgraph.rs lines 44–52). -/
def sgEdgeStep (graph : DiGraph) (index_map : Nat → Option Nat)
    (ng : DiGraph) (old_from : Nat) : DiGraph :=
  match index_map old_from with
  | some new_from =>
      (graph.successors_slice old_from).foldl (sgInnerStep index_map new_from) ng
  | none => ng

/-- The edge loop of `extract_subgraph`. -/
def sgAddEdges (graph : DiGraph) (node_indices : List Nat)
    (index_map : Nat → Option Nat) (ng : DiGraph) : DiGraph :=
  node_indices.foldl (sgEdgeStep graph index_map) ng

/-- `extract_subgraph` (subgraph.rs line 23). -/
def extract_subgraph (graph : DiGraph) (node_indices : List Nat) : DiGraph :=
  if node_indices.isEmpty ∨ graph.nodes.length = 0 then DiGraph.new
  else
    let p := sgAddNodes graph node_indices
    sgAddEdges graph node_indices p.1 p.2

/-- The retained old indices: in-range entries of the request list in
order of first occurrence (out-of-range dropped, duplicates
collapsed). -/
def keepFold (n : Nat) (K : List Nat) (idxs : List Nat) : List Nat :=
  idxs.foldl (fun acc x => if x < n ∧ x ∉ acc then acc ++ [x] else acc) K

def keepList (n : Nat) (idxs : List Nat) : List Nat := keepFold n [] idxs

/-- The key (node-id string) of old index `i`. -/
def oldKey (g : DiGraph) (i : Nat) : String := g.nodes.getD i ""

/-- The forward-adjacency row the extracted subgraph should carry for a
retained old node `u`: its surviving successors, renumbered. -/
def rowSpec (g : DiGraph) (keep : List Nat) (u : Nat) : List Nat :=
  ((g.successors_slice u).filter (fun v => v ∈ keep)).map (fun v => keep.indexOf v)

lemma keepFold_mem (n : Nat) (idxs : List Nat) :
    ∀ K y, y ∈ keepFold n K idxs ↔ y ∈ K ∨ (y ∈ idxs ∧ y < n) := by
  induction idxs with
  | nil => intro K y; simp [keepFold]
  | cons x rest ih =>
    intro K y
    show y ∈ keepFold n (if x < n ∧ x ∉ K then K ++ [x] else K) rest ↔ _
    rw [ih]
    split
    · next hc =>
        simp only [List.mem_append, List.mem_singleton, List.mem_cons,
          List.not_mem_nil, or_false]
        constructor
        · rintro ((h | h) | ⟨h1, h2⟩)
          · exact Or.inl h
          · exact Or.inr ⟨Or.inl h, h ▸ hc.1⟩
          · exact Or.inr ⟨Or.inr h1, h2⟩
        · rintro (h | ⟨h1 | h1, h2⟩)
          · exact Or.inl (Or.inl h)
          · exact Or.inl (Or.inr h1)
          · exact Or.inr ⟨h1, h2⟩
    · next hc =>
        simp only [List.mem_cons, List.not_mem_nil, or_false]
        constructor
        · rintro (h | ⟨h1, h2⟩)
          · exact Or.inl h
          · exact Or.inr ⟨Or.inr h1, h2⟩
        · rintro (h | ⟨h1 | h1, h2⟩)
          · exact Or.inl h
          · subst h1
            rcases Decidable.em (y ∈ K) with hk | hk
            · exact Or.inl hk
            · exact absurd ⟨h2, hk⟩ hc
          · exact Or.inr ⟨h1, h2⟩

lemma keepFold_nodup (n : Nat) (idxs : List Nat) :
    ∀ K, K.Nodup → (keepFold n K idxs).Nodup := by
  induction idxs with
  | nil => intro K h; exact h
  | cons x rest ih =>
    intro K h
    show (keepFold n (if x < n ∧ x ∉ K then K ++ [x] else K) rest).Nodup
    apply ih
    split
    · next hc => exact nodup_append_singleton h hc.2
    · exact h

lemma keepFold_lt (n : Nat) (idxs : List Nat) :
    ∀ K, (∀ k ∈ K, k < n) → ∀ k ∈ keepFold n K idxs, k < n := by
  induction idxs with
  | nil => intro K h; exact h
  | cons x rest ih =>
    intro K h
    show ∀ k ∈ keepFold n (if x < n ∧ x ∉ K then K ++ [x] else K) rest, k < n
    apply ih
    split
    · next hc =>
        intro k hk
        rcases List.mem_append.mp hk with h1 | h1
        · exact h k h1
        · rw [List.mem_singleton] at h1
          subst h1; exact hc.1
    · exact h

lemma keepList_nodup (n : Nat) (idxs : List Nat) : (keepList n idxs).Nodup :=
  keepFold_nodup n idxs [] List.nodup_nil

lemma keepList_lt (n : Nat) (idxs : List Nat) : ∀ k ∈ keepList n idxs, k < n :=
  keepFold_lt n idxs [] (by simp)

lemma keepList_mem (n : Nat) (idxs : List Nat) (y : Nat) :
    y ∈ keepList n idxs ↔ y ∈ idxs ∧ y < n := by
  rw [keepList, keepFold_mem]
  simp

lemma get?_eq_some_getD {α} (l : List α) (i : Nat) (d : α) (h : i < l.length) :
    l.get? i = some (l.getD i d) := by
  rw [List.get?_eq_get h]
  show _ = some ((l.get? i).getD d)
  rw [List.get?_eq_get h]
  rfl

lemma set_getD_self {α} (l : List α) (i : Nat) (d : α) (h : l.getD i d ∈ l ∨ l.length ≤ i) :
    l.set i (l.getD i d) = l := by
  induction l generalizing i with
  | nil => rfl
  | cons a tl ih =>
    cases i with
    | zero => rfl
    | succ j =>
      show a :: tl.set j (tl.getD j d) = a :: tl
      rw [ih j]
      rcases h with h | h
      · by_cases hj : j < tl.length
        · exact Or.inl (getD_mem_of_lt tl d j hj)
        · exact Or.inr (by omega)
      · exact Or.inr (by simpa using h)

lemma map_set_eq_map {α β} (l : List α) (f f' : α → β) (j : Nat) (x : α)
    (hj : l.get? j = some x) (hagree : ∀ u ∈ l, u ≠ x → f u = f' u)
    (hnd : l.Nodup) :
    (l.map f).set j (f' x) = l.map f' := by
  induction l generalizing j with
  | nil => simp at hj
  | cons a tl ih =>
    cases j with
    | zero =>
      have hax : a = x := by simpa using hj
      subst hax
      show f' a :: tl.map f = f' a :: tl.map f'
      congr 1
      apply List.map_eq_map_iff.mpr
      intro u hu
      exact hagree u (by simp [hu]) (fun hux => (List.nodup_cons.mp hnd).1 (hux ▸ hu))
    | succ j =>
      have hjx : tl.get? j = some x := hj
      have hxtl : x ∈ tl := List.get?_mem hjx
      show f a :: (tl.map f).set j (f' x) = f' a :: tl.map f'
      rw [ih j hjx (fun u hu hux => hagree u (by simp [hu]) hux)
        (List.nodup_cons.mp hnd).2]
      congr 1
      exact hagree a (by simp) (fun hax => (List.nodup_cons.mp hnd).1 (hax ▸ hxtl))

lemma oldKey_inj {g : DiGraph} (hnd : g.nodes.Nodup) {a b : Nat}
    (ha : a < g.nodes.length) (hb : b < g.nodes.length)
    (h : oldKey g a = oldKey g b) : a = b := by
  apply List.get?_inj ha hnd
  rw [get?_eq_some_getD g.nodes a "" ha, get?_eq_some_getD g.nodes b "" hb]
  exact congrArg some h

lemma indexOf_map_inj {α β} [DecidableEq α] [DecidableEq β]
    (l : List α) (f : α → β) (x : α)
    (hinj : ∀ a ∈ l, f a = f x → a = x) :
    (l.map f).indexOf (f x) = l.indexOf x := by
  induction l with
  | nil => rfl
  | cons a tl ih =>
    show (f a :: tl.map f).indexOf (f x) = (a :: tl).indexOf x
    by_cases hax : a = x
    · subst hax
      simp [List.indexOf_cons_self]
    · have hfa : f a ≠ f x := fun hc => hax (hinj a (by simp) hc)
      rw [List.indexOf_cons_ne _ hfa, List.indexOf_cons_ne _ hax,
        ih (fun a' ha' => hinj a' (by simp [ha']))]

lemma keep_indexOf_inj {keep : List Nat} (hnd : keep.Nodup) {a b : Nat}
    (ha : a ∈ keep) (hb : b ∈ keep) (h : keep.indexOf a = keep.indexOf b) :
    a = b := by
  have h1 := List.indexOf_get? ha
  have h2 := List.indexOf_get? hb
  rw [h] at h1
  rw [h1] at h2
  exact Option.some.inj h2

lemma getD_map_get? {α β} {l : List α} {j : Nat} {x : α} (f : α → β) (d : β)
    (hj : l.get? j = some x) :
    (l.map f).getD j d = f x := by
  show ((l.map f).get? j).getD d = f x
  rw [List.get?_map, hj]
  rfl

/-- Phase 1 of `extract_subgraph`: the node loop builds the canonical
node-only graph of the kept index list and the matching old→new map. -/
lemma sgAddNodes_go (g : DiGraph) (hnd : g.nodes.Nodup) (idxs : List Nat) :
    ∀ (K : List Nat) (mp : Nat → Option Nat) (ng : DiGraph),
      K.Nodup → (∀ k ∈ K, k < g.nodes.length) →
      ng.nodes = K.map (oldKey g) →
      ng.adj = List.replicate K.length [] →
      ng.rev_adj = List.replicate K.length [] →
      ng.edge_count = 0 →
      (∀ k, mp k = if k ∈ K then some (K.indexOf k) else none) →
      ((idxs.foldl (sgNodeStep g) (mp, ng)).2.nodes
          = (keepFold g.nodes.length K idxs).map (oldKey g) ∧
       (idxs.foldl (sgNodeStep g) (mp, ng)).2.adj
          = List.replicate (keepFold g.nodes.length K idxs).length [] ∧
       (idxs.foldl (sgNodeStep g) (mp, ng)).2.rev_adj
          = List.replicate (keepFold g.nodes.length K idxs).length [] ∧
       (idxs.foldl (sgNodeStep g) (mp, ng)).2.edge_count = 0 ∧
       (∀ k, (idxs.foldl (sgNodeStep g) (mp, ng)).1 k =
          if k ∈ keepFold g.nodes.length K idxs
          then some ((keepFold g.nodes.length K idxs).indexOf k) else none)) := by
  induction idxs with
  | nil =>
    intro K mp ng hKnd hKlt h1 h2 h3 h4 h5
    exact ⟨h1, h2, h3, h4, h5⟩
  | cons x rest ih =>
    intro K mp ng hKnd hKlt h1 h2 h3 h4 h5
    rw [List.foldl_cons]
    show _ ∧ _ ∧ _ ∧ _ ∧ _
    have hkf : keepFold g.nodes.length K (x :: rest)
        = keepFold g.nodes.length (if x < g.nodes.length ∧ x ∉ K then K ++ [x] else K) rest := rfl
    rw [hkf]
    by_cases hx : x < g.nodes.length
    · have hnodeid : g.node_id x = some (oldKey g x) :=
        get?_eq_some_getD g.nodes x "" hx
      by_cases hxK : x ∈ K
      · have hcond : ¬(x < g.nodes.length ∧ x ∉ K) := fun hc => hc.2 hxK
        rw [if_neg hcond]
        have hmem : oldKey g x ∈ ng.nodes := by
          rw [h1]; exact List.mem_map_of_mem _ hxK
        have hstep : sgNodeStep g (mp, ng) x =
            (fun k => if k = x then some (K.indexOf x) else mp k, ng) := by
          unfold sgNodeStep
          rw [if_pos hx, hnodeid]
          show (fun k => if k = x then some ((ng.add_node (oldKey g x)).1) else mp k,
              (ng.add_node (oldKey g x)).2) = _
          unfold DiGraph.add_node
          rw [if_pos hmem]
          have hidx : ng.nodes.indexOf (oldKey g x) = K.indexOf x := by
            rw [h1]
            exact indexOf_map_inj K (oldKey g) x
              (fun a ha hfa => oldKey_inj hnd (hKlt a ha) hx hfa)
          rw [hidx]
        rw [hstep]
        apply ih K _ ng hKnd hKlt h1 h2 h3 h4
        intro k
        by_cases hkx : k = x
        · subst hkx
          rw [if_pos rfl, if_pos hxK]
        · rw [if_neg hkx]
          exact h5 k
      · have hcond : x < g.nodes.length ∧ x ∉ K := ⟨hx, hxK⟩
        rw [if_pos hcond]
        have hmem : oldKey g x ∉ ng.nodes := by
          rw [h1]
          intro hc
          rw [List.mem_map] at hc
          obtain ⟨a, ha, hfa⟩ := hc
          exact hxK (oldKey_inj hnd (hKlt a ha) hx hfa ▸ ha)
        have hstep : sgNodeStep g (mp, ng) x =
            (fun k => if k = x then some K.length else mp k,
             { nodes := ng.nodes ++ [oldKey g x], adj := ng.adj ++ [[]],
               rev_adj := ng.rev_adj ++ [[]], edge_count := ng.edge_count }) := by
          unfold sgNodeStep
          rw [if_pos hx, hnodeid]
          show (fun k => if k = x then some ((ng.add_node (oldKey g x)).1) else mp k,
              (ng.add_node (oldKey g x)).2) = _
          unfold DiGraph.add_node
          rw [if_neg hmem]
          have hlen : ng.nodes.length = K.length := by rw [h1]; simp
          rw [hlen]
        rw [hstep]
        apply ih (K ++ [x]) _ _ (nodup_append_singleton hKnd hxK)
        · intro k hk
          rcases List.mem_append.mp hk with h | h
          · exact hKlt k h
          · rw [List.mem_singleton] at h
            subst h; exact hx
        · rw [h1, List.map_append]
          rfl
        · rw [h2]
          simp [List.replicate_succ']
        · rw [h3]
          simp [List.replicate_succ']
        · exact h4
        · intro k
          by_cases hkx : k = x
          · subst hkx
            rw [if_pos rfl, if_pos (by simp)]
            have : (K ++ [k]).indexOf k = K.length := by
              rw [List.indexOf_append_of_not_mem hxK]
              simp
            rw [this]
          · rw [if_neg hkx, h5 k]
            by_cases hkK : k ∈ K
            · rw [if_pos hkK, if_pos (List.mem_append.mpr (Or.inl hkK)),
                List.indexOf_append_of_mem hkK]
            · rw [if_neg hkK, if_neg (by
                intro hc
                rcases List.mem_append.mp hc with h | h
                · exact hkK h
                · rw [List.mem_singleton] at h
                  exact hkx h)]
    · have hcond : ¬(x < g.nodes.length ∧ x ∉ K) := fun hc => hx hc.1
      rw [if_neg hcond]
      have hstep : sgNodeStep g (mp, ng) x = (mp, ng) := by
        unfold sgNodeStep
        rw [if_neg hx]
      rw [hstep]
      exact ih K mp ng hKnd hKlt h1 h2 h3 h4 h5

/-- Phase 1 of `extract_subgraph`, top-level form. -/
lemma sgAddNodes_spec (g : DiGraph) (hnd : g.nodes.Nodup) (idxs : List Nat) :
    (sgAddNodes g idxs).2.nodes
        = (keepList g.nodes.length idxs).map (oldKey g) ∧
    (sgAddNodes g idxs).2.adj
        = List.replicate (keepList g.nodes.length idxs).length [] ∧
    (sgAddNodes g idxs).2.rev_adj
        = List.replicate (keepList g.nodes.length idxs).length [] ∧
    (sgAddNodes g idxs).2.edge_count = 0 ∧
    (∀ k, (sgAddNodes g idxs).1 k =
        if k ∈ keepList g.nodes.length idxs
        then some ((keepList g.nodes.length idxs).indexOf k) else none) :=
  sgAddNodes_go g hnd idxs [] (fun _ => none) DiGraph.new
    List.nodup_nil (by simp) rfl rfl rfl rfl (by simp)

/-- The node-only graph produced by phase 1 is well-formed. -/
lemma wf_of_empty_adj (nodes : List String) (hnd : nodes.Nodup) :
    Wf { nodes := nodes, adj := List.replicate nodes.length [],
         rev_adj := List.replicate nodes.length [], edge_count := 0 } := by
  refine ⟨by simp, by simp, hnd, ?_, ?_, ?_, ?_⟩
  · intro l hl
    rw [List.eq_of_mem_replicate hl]
    simp
  · intro l hl
    rw [List.eq_of_mem_replicate hl]
    simp
  · intro u hu v hv
    show v ∈ (List.replicate nodes.length ([] : List Nat)).getD u [] ↔
      u ∈ (List.replicate nodes.length ([] : List Nat)).getD v []
    rw [getD_replicate, getD_replicate]
    simp
  · show (0 : Nat) = _
    simp [List.map_replicate]

/-- Inner edge loop, no-op case: every mapped target is already in the
source row, so each `add_edge` is a duplicate and the graph does not
change. -/
lemma sgInner_noop (mp : Nat → Option Nat) (j0 : Nat) (ws : List Nat) :
    ∀ ng : DiGraph,
      (∀ w ∈ ws, ∀ j, mp w = some j → j ∈ ng.adj.getD j0 []) →
      ws.foldl (sgInnerStep mp j0) ng = ng := by
  induction ws with
  | nil => intro ng _; rfl
  | cons w rest ih =>
    intro ng h
    rw [List.foldl_cons]
    have hstep : sgInnerStep mp j0 ng w = ng := by
      unfold sgInnerStep
      cases hmw : mp w with
      | none => rfl
      | some j => exact add_edge_noop_of_mem (h w (by simp) j hmw)
    rw [hstep]
    exact ih ng (fun w' hw' => h w' (by simp [hw']))

/-- Inner edge loop, fresh case: the mapped surviving targets are
appended to row `j0` in order. -/
lemma sgInner_fresh (mp : Nat → Option Nat) (keep : List Nat)
    (hmp : ∀ k, mp k = if k ∈ keep then some (keep.indexOf k) else none)
    (j0 : Nat) (hj0 : j0 < keep.length) (ws : List Nat) :
    ∀ (ng : DiGraph) (r : List Nat),
      Wf ng → ng.nodes.length = keep.length →
      ng.adj.getD j0 [] = r →
      ((ws.filter (fun v => v ∈ keep)).map (fun v => keep.indexOf v)).Nodup →
      (∀ w ∈ ws, w ∈ keep → keep.indexOf w ∉ r) →
      ((ws.foldl (sgInnerStep mp j0) ng).adj
          = ng.adj.set j0 (r ++ (ws.filter (fun v => v ∈ keep)).map (fun v => keep.indexOf v)) ∧
       Wf (ws.foldl (sgInnerStep mp j0) ng) ∧
       (ws.foldl (sgInnerStep mp j0) ng).nodes = ng.nodes) := by
  induction ws with
  | nil =>
    intro ng r hwf hlen hrow _ _
    refine ⟨?_, hwf, rfl⟩
    show ng.adj = ng.adj.set j0 (r ++ [])
    rw [List.append_nil, ← hrow]
    rw [set_getD_self]
    by_cases hj : j0 < ng.adj.length
    · exact Or.inl (getD_mem_of_lt ng.adj [] j0 hj)
    · exact Or.inr (by omega)
  | cons w rest ih =>
    intro ng r hwf hlen hrow hnodup hfresh
    rw [List.foldl_cons]
    by_cases hwk : w ∈ keep
    · have hiw : keep.indexOf w < keep.length := List.indexOf_lt_length.mpr hwk
      have hstep : sgInnerStep mp j0 ng w = ng.add_edge j0 (keep.indexOf w) := by
        unfold sgInnerStep
        rw [hmp w, if_pos hwk]
      have hfil : (w :: rest).filter (fun v => v ∈ keep)
          = w :: rest.filter (fun v => v ∈ keep) := by
        rw [List.filter_cons]
        simp [hwk]
      rw [hfil, List.map_cons] at hnodup
      have hadd : ng.add_edge j0 (keep.indexOf w) =
          { nodes := ng.nodes
            adj := ng.adj.set j0 (r ++ [keep.indexOf w])
            rev_adj := ng.rev_adj.set (keep.indexOf w)
              (ng.rev_adj.getD (keep.indexOf w) [] ++ [j0])
            edge_count := ng.edge_count + 1 } := by
        unfold DiGraph.add_edge
        rw [if_neg (by omega), if_neg (by rw [hrow]; exact hfresh w (by simp) hwk), hrow]
      have hwf' : Wf (ng.add_edge j0 (keep.indexOf w)) := wf_add_edge hwf _ _
      have hlen' : (ng.add_edge j0 (keep.indexOf w)).nodes.length = keep.length := by
        rw [add_edge_nodes]; exact hlen
      have hrow' : (ng.add_edge j0 (keep.indexOf w)).adj.getD j0 [] = r ++ [keep.indexOf w] := by
        rw [hadd]
        show (ng.adj.set j0 (r ++ [keep.indexOf w])).getD j0 [] = _
        rw [getD_set_self _ _ _ _ (by
          obtain ⟨hal, -⟩ := hwf
          omega)]
      rw [hstep]
      have hcond : ∀ w' ∈ rest, w' ∈ keep →
          keep.indexOf w' ∉ r ++ [keep.indexOf w] := by
        intro w' hw' hw'k
        rw [List.mem_append, List.mem_singleton]
        rintro (h | h)
        · exact hfresh w' (by simp [hw']) hw'k h
        · apply (List.nodup_cons.mp hnodup).1
          rw [← h]
          exact List.mem_map_of_mem _ (List.mem_filter.mpr ⟨hw', by simpa using hw'k⟩)
      obtain ⟨ha, hb, hc⟩ := ih (ng.add_edge j0 (keep.indexOf w)) (r ++ [keep.indexOf w])
        hwf' hlen' hrow' (List.nodup_cons.mp hnodup).2 hcond
      refine ⟨?_, hb, by rw [hc, add_edge_nodes]⟩
      rw [ha, hadd]
      show (ng.adj.set j0 _).set j0 _ = _
      rw [List.set_set, hfil, List.map_cons]
      congr 1
      simp
    · have hstep : sgInnerStep mp j0 ng w = ng := by
        unfold sgInnerStep
        rw [hmp w, if_neg hwk]
      have hfil : (w :: rest).filter (fun v => v ∈ keep)
          = rest.filter (fun v => v ∈ keep) := by
        rw [List.filter_cons]
        simp [hwk]
      rw [hstep, hfil]
      rw [hfil] at hnodup
      exact ih ng r hwf hlen hrow hnodup (fun w' hw' => hfresh w' (by simp [hw']))

/-- Phase 2 of `extract_subgraph`: the outer edge loop fills exactly
the rows of the already-processed retained nodes. -/
lemma sgAddEdges_go (g : DiGraph) (hw : Wf g) (keep : List Nat)
    (hKnd : keep.Nodup) (hKlt : ∀ k ∈ keep, k < g.nodes.length)
    (mp : Nat → Option Nat)
    (hmp : ∀ k, mp k = if k ∈ keep then some (keep.indexOf k) else none)
    (idxs : List Nat) :
    ∀ (D : List Nat) (ng : DiGraph),
      Wf ng →
      ng.nodes = keep.map (oldKey g) →
      ng.adj = keep.map (fun u => if u ∈ D then rowSpec g keep u else []) →
      (Wf (idxs.foldl (sgEdgeStep g mp) ng) ∧
       (idxs.foldl (sgEdgeStep g mp) ng).nodes = keep.map (oldKey g) ∧
       (idxs.foldl (sgEdgeStep g mp) ng).adj
          = keep.map (fun u => if u ∈ D ++ idxs then rowSpec g keep u else [])) := by
  induction idxs with
  | nil =>
    intro D ng h1 h2 h3
    rw [List.foldl_nil, List.append_nil]
    exact ⟨h1, h2, h3⟩
  | cons x rest ih =>
    intro D ng h1 h2 h3
    rw [List.foldl_cons]
    have hDx : D ++ x :: rest = (D ++ [x]) ++ rest := by simp
    rw [hDx]
    by_cases hxk : x ∈ keep
    · have hj0 : keep.indexOf x < keep.length := List.indexOf_lt_length.mpr hxk
      have hget : keep.get? (keep.indexOf x) = some x := List.indexOf_get? hxk
      have hstep : sgEdgeStep g mp ng x =
          (g.successors_slice x).foldl (sgInnerStep mp (keep.indexOf x)) ng := by
        unfold sgEdgeStep
        rw [hmp x, if_pos hxk]
      rw [hstep]
      have hrow : ng.adj.getD (keep.indexOf x) []
          = if x ∈ D then rowSpec g keep x else [] := by
        rw [h3]
        exact getD_map_get? _ [] hget
      by_cases hxD : x ∈ D
      · rw [if_pos hxD] at hrow
        have hnoop : (g.successors_slice x).foldl (sgInnerStep mp (keep.indexOf x)) ng = ng := by
          apply sgInner_noop
          intro w hwsucc j hmw
          rw [hmp w] at hmw
          by_cases hwkeep : w ∈ keep
          · rw [if_pos hwkeep] at hmw
            have hj : j = keep.indexOf w := (Option.some.inj hmw).symm
            subst hj
            rw [hrow]
            exact List.mem_map_of_mem _
              (List.mem_filter.mpr ⟨hwsucc, by simpa using hwkeep⟩)
          · rw [if_neg hwkeep] at hmw
            exact Option.noConfusion hmw
        rw [hnoop]
        apply ih (D ++ [x]) ng h1 h2
        rw [h3]
        apply List.map_eq_map_iff.mpr
        intro u hu
        by_cases hux : u = x
        · subst hux
          rw [if_pos hxD, if_pos (by simp)]
        · have : u ∈ D ++ [x] ↔ u ∈ D := by
            simp [hux]
          rw [if_congr this rfl rfl]
      · rw [if_neg hxD] at hrow
        have hsucc_nodup : (g.successors_slice x).Nodup := by
          obtain ⟨hal, -, -, hadjp, -, -, -⟩ := hw
          unfold DiGraph.successors_slice
          by_cases hxl : x < g.adj.length
          · exact (hadjp _ (getD_mem_of_lt g.adj [] x hxl)).1
          · rw [getD_of_length_le _ _ _ (by omega)]
            exact List.nodup_nil
        have hmapnodup : (((g.successors_slice x).filter (fun v => v ∈ keep)).map
            (fun v => keep.indexOf v)).Nodup := by
          apply (List.nodup_map_iff_inj_on (hsucc_nodup.filter _)).mpr
          intro a ha b hb hab
          have hak : a ∈ keep := by simpa using (List.mem_filter.mp ha).2
          have hbk : b ∈ keep := by simpa using (List.mem_filter.mp hb).2
          exact keep_indexOf_inj hKnd hak hbk hab
        obtain ⟨ha, hb, hc⟩ := sgInner_fresh mp keep hmp (keep.indexOf x) hj0
          (g.successors_slice x) ng [] h1 (by rw [h2]; simp) hrow hmapnodup
          (by intro w _ _; simp)
        apply ih (D ++ [x]) _ hb (by rw [hc, h2])
        rw [ha, List.nil_append, h3]
        have hrsx : ((g.successors_slice x).filter (fun v => v ∈ keep)).map
              (fun v => keep.indexOf v)
            = (fun u => if u ∈ D ++ [x] then rowSpec g keep u else []) x := by
          show rowSpec g keep x = if x ∈ D ++ [x] then rowSpec g keep x else []
          rw [if_pos (by simp)]
        rw [hrsx]
        refine map_set_eq_map keep (fun u => if u ∈ D then rowSpec g keep u else [])
          (fun u => if u ∈ D ++ [x] then rowSpec g keep u else [])
          (keep.indexOf x) x hget ?_ hKnd
        intro u hu hux
        show (if u ∈ D then rowSpec g keep u else [])
          = if u ∈ D ++ [x] then rowSpec g keep u else []
        have : u ∈ D ++ [x] ↔ u ∈ D := by simp [hux]
        rw [if_congr this rfl rfl]
    · have hstep : sgEdgeStep g mp ng x = ng := by
        unfold sgEdgeStep
        rw [hmp x, if_neg hxk]
      rw [hstep]
      apply ih (D ++ [x]) ng h1 h2
      rw [h3]
      apply List.map_eq_map_iff.mpr
      intro u hu
      have hux : u ≠ x := fun hc => hxk (hc ▸ hu)
      have : u ∈ D ++ [x] ↔ u ∈ D := by simp [hux]
      rw [if_congr this rfl rfl]

lemma diGraphFieldsEq {a b : DiGraph} (h1 : a.nodes = b.nodes) (h2 : a.adj = b.adj)
    (h3 : a.rev_adj = b.rev_adj) (h4 : a.edge_count = b.edge_count) : a = b := by
  cases a; cases b
  cases h1; cases h2; cases h3; cases h4
  rfl

/-- Full structural description of `extract_subgraph` on well-formed
graphs: the nodes are the kept old keys in order, and each row holds
the renumbered surviving successors of the corresponding old node. -/
lemma extract_subgraph_spec (g : DiGraph) (hw : Wf g) (idxs : List Nat) :
    Wf (extract_subgraph g idxs) ∧
    (extract_subgraph g idxs).nodes
        = (keepList g.nodes.length idxs).map (oldKey g) ∧
    (extract_subgraph g idxs).adj
        = (keepList g.nodes.length idxs).map
            (rowSpec g (keepList g.nodes.length idxs)) := by
  have hnd : g.nodes.Nodup := hw.2.2.1
  set keep := keepList g.nodes.length idxs with hkeep
  unfold extract_subgraph
  by_cases hbr : idxs.isEmpty ∨ g.nodes.length = 0
  · rw [if_pos hbr]
    have hkn : keep = [] := by
      apply List.eq_nil_iff_forall_not_mem.mpr
      intro y hy
      rw [hkeep, keepList_mem] at hy
      rcases hbr with h | h
      · rw [List.isEmpty_iff_eq_nil] at h
        rw [h] at hy
        exact absurd hy.1 (by simp)
      · omega
    rw [hkn]
    exact ⟨wf_new, rfl, rfl⟩
  · rw [if_neg hbr]
    obtain ⟨hn1, hn2, hn3, hn4, hn5⟩ := sgAddNodes_spec g hnd idxs
    have hknodup : keep.Nodup := keepList_nodup _ _
    have hklt : ∀ k ∈ keep, k < g.nodes.length := keepList_lt _ _
    have hmapnd : (keep.map (oldKey g)).Nodup := by
      apply (List.nodup_map_iff_inj_on hknodup).mpr
      intro a ha b hb hab
      exact oldKey_inj hnd (hklt a ha) (hklt b hb) hab
    have hG0 : (sgAddNodes g idxs).2 =
        { nodes := keep.map (oldKey g)
          adj := List.replicate (keep.map (oldKey g)).length []
          rev_adj := List.replicate (keep.map (oldKey g)).length []
          edge_count := 0 } := by
      apply diGraphFieldsEq hn1 _ _ hn4
      · rw [hn2]; simp
      · rw [hn3]; simp
    have hwfG0 : Wf (sgAddNodes g idxs).2 := by
      rw [hG0]
      exact wf_of_empty_adj _ hmapnd
    have hadjG0 : (sgAddNodes g idxs).2.adj
        = keep.map (fun u => if u ∈ ([] : List Nat) then rowSpec g keep u else []) := by
      rw [hn2]
      have : (fun u => if u ∈ ([] : List Nat) then rowSpec g keep u else [])
          = fun _ => ([] : List Nat) := by
        funext u
        simp
      rw [this, List.map_const']
    obtain ⟨hwfS, hnodesS, hadjS⟩ := sgAddEdges_go g hw keep hknodup hklt
      (sgAddNodes g idxs).1 hn5 idxs [] (sgAddNodes g idxs).2 hwfG0 hn1 hadjG0
    refine ⟨hwfS, hnodesS, ?_⟩
    show (idxs.foldl (sgEdgeStep g (sgAddNodes g idxs).1) (sgAddNodes g idxs).2).adj
      = List.map (rowSpec g keep) keep
    rw [hadjS, List.nil_append]
    apply List.map_eq_map_iff.mpr
    intro u hu
    rw [if_pos ((keepList_mem g.nodes.length idxs u).mp hu).1]

lemma keepFold_all_fresh (n : Nat) (idxs : List Nat) :
    ∀ K, idxs.Nodup → (∀ x ∈ idxs, x < n ∧ x ∉ K) →
      keepFold n K idxs = K ++ idxs := by
  induction idxs with
  | nil => intro K _ _; simp [keepFold]
  | cons x rest ih =>
    intro K hnd hfresh
    show keepFold n (if x < n ∧ x ∉ K then K ++ [x] else K) rest = _
    rw [if_pos ⟨(hfresh x (by simp)).1, (hfresh x (by simp)).2⟩]
    rw [ih (K ++ [x]) (List.Nodup.of_cons hnd) ?_]
    · simp
    · intro y hy
      refine ⟨(hfresh y (by simp [hy])).1, ?_⟩
      intro hc
      rcases List.mem_append.mp hc with h | h
      · exact (hfresh y (by simp [hy])).2 h
      · rw [List.mem_singleton] at h
        exact (List.nodup_cons.mp hnd).1 (h ▸ hy)

lemma keepList_range (n : Nat) : keepList n (List.range n) = List.range n := by
  rw [keepList, keepFold_all_fresh n _ [] (List.nodup_range n)]
  · simp
  · intro x hx
    exact ⟨List.mem_range.mp hx, by simp⟩

lemma indexOf_range {n v : Nat} (h : v < n) : (List.range n).indexOf v = v := by
  apply List.get?_inj (List.indexOf_lt_length.mpr (List.mem_range.mpr h))
    (List.nodup_range n)
  rw [List.indexOf_get? (List.mem_range.mpr h), List.get?_range h]

/-- C5: for a well-formed graph, `extract_subgraph` keeps exactly the
in-range listed nodes with duplicates collapsed, densely renumbered in
the order given with original keys preserved; its edges are exactly the
original edges with both endpoints retained; and extraction on the full
node set reproduces the original edge count. -/
theorem C5_extract_subgraph (g : DiGraph) (hw : Wf g) (idxs : List Nat) :
    (extract_subgraph g idxs).nodes
        = (keepList g.node_count idxs).map (oldKey g) ∧
    (∀ a b : Nat,
      (a, b) ∈ (extract_subgraph g idxs).edges ↔
        ∃ u ∈ keepList g.node_count idxs, ∃ v ∈ keepList g.node_count idxs,
          (u, v) ∈ g.edges ∧ a = (keepList g.node_count idxs).indexOf u ∧
            b = (keepList g.node_count idxs).indexOf v) ∧
    (extract_subgraph g (List.range g.node_count)).edge_count = g.edge_count := by
  obtain ⟨hsWf, hsNodes, hsAdj⟩ := extract_subgraph_spec g hw idxs
  have hnc : g.node_count = g.nodes.length := rfl
  rw [hnc]
  set keep := keepList g.nodes.length idxs with hkeep
  have hknodup : keep.Nodup := keepList_nodup _ _
  have hklt : ∀ k ∈ keep, k < g.nodes.length := keepList_lt _ _
  refine ⟨hsNodes, ?_, ?_⟩
  · intro a b
    rw [mem_edges, hsAdj]
    constructor
    · intro hab
      by_cases halt : a < keep.length
      · have hgetk : keep.get? a = some (keep.getD a 0) := get?_eq_some_getD keep a 0 halt
        rw [getD_map_get? _ [] hgetk] at hab
        unfold rowSpec at hab
        rw [List.mem_map] at hab
        obtain ⟨v, hvf, hbv⟩ := hab
        rw [List.mem_filter] at hvf
        obtain ⟨hvsucc, hvk⟩ := hvf
        have hvk' : v ∈ keep := by simpa using hvk
        have huk : keep.getD a 0 ∈ keep := List.get?_mem hgetk
        refine ⟨keep.getD a 0, huk, v, hvk', ?_, ?_, hbv.symm⟩
        · rw [mem_edges]
          exact hvsucc
        · apply (List.get?_inj (List.indexOf_lt_length.mpr huk) hknodup _).symm
          rw [List.indexOf_get? huk, hgetk]
      · rw [getD_of_length_le _ _ _ (by simpa using Nat.le_of_not_lt halt)] at hab
        exact absurd hab (by simp)
    · rintro ⟨u, hu, v, hv, hedge, ha, hb⟩
      subst ha hb
      have hgetk : keep.get? (keep.indexOf u) = some u := List.indexOf_get? hu
      rw [getD_map_get? _ [] hgetk]
      rw [mem_edges] at hedge
      unfold rowSpec
      exact List.mem_map_of_mem _ (List.mem_filter.mpr ⟨hedge, by simpa using hv⟩)
  · by_cases hzero : g.nodes.length = 0
    · have hempty : List.range g.nodes.length = [] := by rw [hzero]; rfl
      have hadjnil : g.adj = [] := by
        have := hw.1
        rw [hzero] at this
        exact List.length_eq_zero.mp this
      have hcnt := hw.2.2.2.2.2.2
      rw [hadjnil] at hcnt
      simp at hcnt
      show (extract_subgraph g (List.range g.nodes.length)).edge_count = _
      rw [hempty]
      show DiGraph.new.edge_count = g.edge_count
      rw [hcnt]
      rfl
    · obtain ⟨hfWf, -, hfAdj⟩ := extract_subgraph_spec g hw (List.range g.nodes.length)
      have hkr : keepList g.nodes.length (List.range g.nodes.length)
          = List.range g.nodes.length := keepList_range _
      rw [hkr] at hfAdj
      have hal : g.adj.length = g.nodes.length := hw.1
      have hadj_eq : (extract_subgraph g (List.range g.nodes.length)).adj = g.adj := by
        rw [hfAdj]
        apply List.ext_get?
        intro i
        by_cases hi : i < g.nodes.length
        · rw [List.get?_map, List.get?_range hi]
          show some (rowSpec g (List.range g.nodes.length) i) = _
          have hrow : rowSpec g (List.range g.nodes.length) i = g.adj.getD i [] := by
            unfold rowSpec
            have hfil : (g.successors_slice i).filter
                (fun v => v ∈ List.range g.nodes.length) = g.successors_slice i := by
              apply List.filter_eq_self.mpr
              intro v hvm
              have hlt : v < g.nodes.length := by
                unfold DiGraph.successors_slice at hvm
                rw [mem_getD_nil_iff] at hvm
                obtain ⟨li, hget, hvl⟩ := hvm
                exact (hw.2.2.2.1 li (List.get?_mem hget)).2 v hvl
              simpa using List.mem_range.mpr hlt
            rw [hfil]
            have hmapid : (g.successors_slice i).map
                (fun v => (List.range g.nodes.length).indexOf v)
                = (g.successors_slice i).map id := by
              apply List.map_eq_map_iff.mpr
              intro v hvm
              have hlt : v < g.nodes.length := by
                unfold DiGraph.successors_slice at hvm
                rw [mem_getD_nil_iff] at hvm
                obtain ⟨li, hget, hvl⟩ := hvm
                exact (hw.2.2.2.1 li (List.get?_mem hget)).2 v hvl
              exact indexOf_range hlt
            rw [hmapid, List.map_id]
            rfl
          rw [hrow]
          exact (get?_eq_some_getD g.adj i [] (by omega)).symm
        · rw [List.get?_eq_none.mpr (by simpa using Nat.le_of_not_lt hi),
            List.get?_eq_none.mpr (by
              have := hw.1
              omega)]
      have hcntS := hfWf.2.2.2.2.2.2
      have hcntG := hw.2.2.2.2.2.2
      show (extract_subgraph g (List.range g.nodes.length)).edge_count = _
      rw [hcntS, hadj_eq, ← hcntG]

/-- Witness for C5: extracting nodes 1 and 2 of the path graph. -/
theorem C5_extract_subgraph_witness :
    (extract_subgraph path3 [1, 2]).nodes
        = (keepList path3.node_count [1, 2]).map (oldKey path3) ∧
    (∀ a b : Nat,
      (a, b) ∈ (extract_subgraph path3 [1, 2]).edges ↔
        ∃ u ∈ keepList path3.node_count [1, 2], ∃ v ∈ keepList path3.node_count [1, 2],
          (u, v) ∈ path3.edges ∧ a = (keepList path3.node_count [1, 2]).indexOf u ∧
            b = (keepList path3.node_count [1, 2]).indexOf v) ∧
    (extract_subgraph path3 (List.range path3.node_count)).edge_count = path3.edge_count :=
  C5_extract_subgraph path3 (by decide) [1, 2]

/-! ## Greedy vertex cover (`coverage.rs`, `coverage_set`)

The Rust loop keeps a `HashSet<(usize, usize)>` of covered edges
(modelled as a duplicate-free list), scans all nodes for the one with
the most uncovered incident edges (strict `>` keeps the first best, so
ties go to the smallest index), then marks that node's incident edges
covered.  `coverage_ratio : f64` is modelled as an exact rational; the
claims only inspect it where the code assigns the literal `1.0`. -/

structure CoverageItem where
  node : Nat
  edges_added : Nat
  deriving Repr, DecidableEq

structure CoverageResult where
  items : List CoverageItem
  edges_covered : Nat
  total_edges : Nat
  coverage_ratio : ℚ
  deriving Repr, DecidableEq

/-- The number of currently-uncovered edges incident to `v` (coverage.rs
lines 69–85): uncovered outgoing plus uncovered incoming. -/
def covCount (g : DiGraph) (covered : List (Nat × Nat)) (v : Nat) : Nat :=
  ((g.successors_slice v).filter (fun w => (v, w) ∉ covered)).length +
  ((g.predecessors_slice v).filter (fun u => (u, v) ∉ covered)).length

/-- One comparison of the best-node scan (coverage.rs lines 86–89):
strictly greater counts replace the running best. -/
def scanStep (g : DiGraph) (covered : List (Nat × Nat))
    (best : Option Nat × Nat) (v : Nat) : Option Nat × Nat :=
  if covCount g covered v > best.2 then (some v, covCount g covered v) else best

/-- The linear scan for the best node (coverage.rs lines 66–90). -/
def bestScan (g : DiGraph) (covered : List (Nat × Nat)) (n : Nat) :
    Option Nat × Nat :=
  (List.range n).foldl (scanStep g covered) (none, 0)

/-- `HashSet::insert` on the covered-edge set. -/
def coverInsert (c : List (Nat × Nat)) (e : Nat × Nat) : List (Nat × Nat) :=
  if e ∈ c then c else c ++ [e]

/-- Marking all edges incident to `node` covered (coverage.rs lines
94–101): outgoing first, then incoming. -/
def markCovered (g : DiGraph) (covered : List (Nat × Nat)) (node : Nat) :
    List (Nat × Nat) :=
  (g.predecessors_slice node).foldl (fun c u => coverInsert c (u, node))
    ((g.successors_slice node).foldl (fun c w => coverInsert c (node, w)) covered)

/-- The `for _ in 0..limit` selection loop (coverage.rs lines 64–111),
carrying (covered set, selected items, edges covered). -/
def covLoop (g : DiGraph) : Nat → List (Nat × Nat) → List CoverageItem → Nat →
    List CoverageItem × Nat
  | 0, _, selected, edges_covered => (selected, edges_covered)
  | limit + 1, covered, selected, edges_covered =>
      match bestScan g covered g.node_count with
      | (some node, best_count) =>
          if 0 < best_count then
            covLoop g limit (markCovered g covered node)
              (selected ++ [⟨node, best_count⟩]) (edges_covered + best_count)
          else (selected, edges_covered)
      | (none, _) => (selected, edges_covered)

/-- `coverage_set` (coverage.rs line 45). -/
def coverage_set (g : DiGraph) (limit : Nat) : CoverageResult :=
  let n := g.node_count
  let total_edges := g.edge_count
  if n = 0 ∨ total_edges = 0 then
    { items := [], edges_covered := 0, total_edges := total_edges
      coverage_ratio := if total_edges = 0 then 1 else 0 }
  else
    let r := covLoop g limit [] [] 0
    { items := r.1, edges_covered := r.2, total_edges := total_edges
      coverage_ratio := if 0 < total_edges then (r.2 : ℚ) / (total_edges : ℚ) else 1 }

/-- Specification of the best-node scan: a `some` result is the first
index attaining the maximal positive uncovered-incident count; a `none`
result means every count is zero. -/
lemma bestScan_spec (g : DiGraph) (covered : List (Nat × Nat)) : ∀ n : Nat,
    ((bestScan g covered n).1 = none →
      (bestScan g covered n).2 = 0 ∧ ∀ v < n, covCount g covered v = 0) ∧
    (∀ v, (bestScan g covered n).1 = some v →
      v < n ∧ (bestScan g covered n).2 = covCount g covered v ∧
      1 ≤ covCount g covered v ∧
      (∀ w < n, covCount g covered w ≤ covCount g covered v) ∧
      (∀ w < v, covCount g covered w < covCount g covered v)) := by
  intro n
  induction n with
  | zero =>
    constructor
    · intro _
      exact ⟨rfl, fun v hv => absurd hv (by omega)⟩
    · intro v hv
      exact absurd hv (by simp [bestScan])
  | succ n ih =>
    have hunf : bestScan g covered (n + 1)
        = scanStep g covered (bestScan g covered n) n := by
      unfold bestScan
      rw [List.range_succ, List.foldl_append, List.foldl_cons, List.foldl_nil]
    obtain ⟨ihn, ihs⟩ := ih
    rw [hunf]
    unfold scanStep
    by_cases hgt : covCount g covered n > (bestScan g covered n).2
    · rw [if_pos hgt]
      constructor
      · intro h
        exact Option.noConfusion h
      · intro v hv
        have hvn : v = n := by
          have : some n = some v := hv
          exact (Option.some.inj this).symm
        subst hvn
        refine ⟨by omega, rfl, ?_, ?_, ?_⟩
        · cases hbs : (bestScan g covered v).1 with
          | none => omega
          | some u => omega
        · intro w hw
          rcases Nat.lt_or_ge w v with h | h
          · cases hbs : (bestScan g covered v).1 with
            | none =>
              have := (ihn hbs).2 w h
              omega
            | some u =>
              obtain ⟨-, hbc, -, hmax, -⟩ := ihs u hbs
              have := hmax w h
              omega
          · have : w = v := by omega
            subst this
            exact le_refl _
        · intro w hw
          cases hbs : (bestScan g covered v).1 with
          | none =>
            have := (ihn hbs).2 w hw
            omega
          | some u =>
            obtain ⟨-, hbc, -, hmax, -⟩ := ihs u hbs
            have := hmax w hw
            omega
    · rw [if_neg hgt]
      constructor
      · intro h
        obtain ⟨h1, h2⟩ := ihn h
        refine ⟨h1, ?_⟩
        intro v hv
        rcases Nat.lt_or_ge v n with h' | h'
        · exact h2 v h'
        · have : v = n := by omega
          subst this
          omega
      · intro v hv
        obtain ⟨h1, h2, h3, h4, h5⟩ := ihs v hv
        refine ⟨by omega, h2, h3, ?_, h5⟩
        intro w hw
        rcases Nat.lt_or_ge w n with h' | h'
        · exact h4 w h'
        · have : w = n := by omega
          subst this
          omega

/-- The selection loop only appends to the selected list. -/
lemma covLoop_selected_ext (g : DiGraph) :
    ∀ (limit : Nat) (covered : List (Nat × Nat)) (sel : List CoverageItem) (ec : Nat),
      ∃ tail, (covLoop g limit covered sel ec).1 = sel ++ tail := by
  intro limit
  induction limit with
  | zero => intro covered sel ec; exact ⟨[], by simp [covLoop]⟩
  | succ l ih =>
    intro covered sel ec
    unfold covLoop
    cases hbs : bestScan g covered g.node_count with
    | mk o bc =>
      cases o with
      | some node =>
        dsimp only
        by_cases hpos : 0 < bc
        · rw [if_pos hpos]
          obtain ⟨tail, htail⟩ := ih (markCovered g covered node)
            (sel ++ [⟨node, bc⟩]) (ec + bc)
          exact ⟨⟨node, bc⟩ :: tail, by rw [htail]; simp⟩
        · rw [if_neg hpos]
          exact ⟨[], by simp⟩
      | none => exact ⟨[], by simp⟩

/-- The selection loop adds at most `limit` items. -/
lemma covLoop_length (g : DiGraph) :
    ∀ (limit : Nat) (covered : List (Nat × Nat)) (sel : List CoverageItem) (ec : Nat),
      (covLoop g limit covered sel ec).1.length ≤ sel.length + limit := by
  intro limit
  induction limit with
  | zero => intro covered sel ec; simp [covLoop]
  | succ l ih =>
    intro covered sel ec
    unfold covLoop
    cases hbs : bestScan g covered g.node_count with
    | mk o bc =>
      cases o with
      | some node =>
        dsimp only
        by_cases hpos : 0 < bc
        · rw [if_pos hpos]
          have := ih (markCovered g covered node) (sel ++ [⟨node, bc⟩]) (ec + bc)
          simp only [List.length_append, List.length_cons, List.length_nil] at this ⊢
          omega
        · rw [if_neg hpos]
          simp
      | none =>
        dsimp only
        simp

/-- The edge enumeration of a well-formed graph has exactly
`edge_count` entries. -/
lemma edges_length {g : DiGraph} (hw : Wf g) : g.edges.length = g.edge_count := by
  have hcnt := hw.2.2.2.2.2.2
  rw [hcnt]
  unfold DiGraph.edges
  have hlen : ∀ (l : List (Nat × List Nat)) (f : Nat × List Nat → List (Nat × Nat)),
      (l.flatMap f).length = ((l.map f).map List.length).sum := by
    intro l f
    induction l with
    | nil => rfl
    | cons a tl ih => simp [List.flatMap_cons, ih]
  rw [hlen]
  congr 1
  have : (g.adj.enum.map fun ft => ft.2.map fun t => (ft.1, t)).map List.length
      = g.adj.enum.map (fun ft => ft.2.length) := by
    rw [List.map_map]
    apply List.map_eq_map_iff.mpr
    intro ft _
    simp
  rw [this]
  have : g.adj.enum.map (fun ft => ft.2.length)
      = (g.adj.enum.map Prod.snd).map List.length := by
    rw [List.map_map]
    rfl
  rw [this, List.enum_map_snd]

lemma coverInsert_fold_mem (ps : List (Nat × Nat)) :
    ∀ c q, q ∈ ps.foldl coverInsert c ↔ q ∈ c ∨ q ∈ ps := by
  induction ps with
  | nil => intro c q; simp
  | cons p rest ih =>
    intro c q
    rw [List.foldl_cons, ih]
    unfold coverInsert
    by_cases hp : p ∈ c
    · rw [if_pos hp]
      constructor
      · rintro (h | h)
        · exact Or.inl h
        · exact Or.inr (by simp [h])
      · rintro (h | h)
        · exact Or.inl h
        · rcases List.mem_cons.mp h with h | h
          · exact Or.inl (h ▸ hp)
          · exact Or.inr h
    · rw [if_neg hp]
      constructor
      · rintro (h | h)
        · rcases List.mem_append.mp h with h | h
          · exact Or.inl h
          · rw [List.mem_singleton] at h
            exact Or.inr (by simp [h])
        · exact Or.inr (by simp [h])
      · rintro (h | h)
        · exact Or.inl (List.mem_append.mpr (Or.inl h))
        · rcases List.mem_cons.mp h with h | h
          · exact Or.inl (List.mem_append.mpr (Or.inr (by simp [h])))
          · exact Or.inr h

lemma coverInsert_fold_nodup (ps : List (Nat × Nat)) :
    ∀ c, c.Nodup → (ps.foldl coverInsert c).Nodup := by
  induction ps with
  | nil => intro c h; exact h
  | cons p rest ih =>
    intro c h
    rw [List.foldl_cons]
    apply ih
    unfold coverInsert
    by_cases hp : p ∈ c
    · rw [if_pos hp]; exact h
    · rw [if_neg hp]; exact nodup_append_singleton h hp

lemma coverInsert_fold_length (ps : List (Nat × Nat)) (hnd : ps.Nodup) :
    ∀ c, (ps.foldl coverInsert c).length
      = c.length + (ps.filter (fun p => p ∉ c)).length := by
  induction ps with
  | nil => intro c; simp
  | cons p rest ih =>
    intro c
    rw [List.foldl_cons]
    by_cases hp : p ∈ c
    · have hfil : (p :: rest).filter (fun q => q ∉ c) = rest.filter (fun q => q ∉ c) := by
        simp [List.filter_cons, hp]
      rw [hfil]
      rw [show coverInsert c p = c from if_pos hp]
      exact ih (List.Nodup.of_cons hnd) c
    · have hfil : (p :: rest).filter (fun q => q ∉ c)
          = p :: rest.filter (fun q => q ∉ c) := by
        simp [List.filter_cons, hp]
      rw [hfil]
      rw [show coverInsert c p = c ++ [p] from if_neg hp]
      rw [ih (List.Nodup.of_cons hnd) (c ++ [p])]
      have hfeq : rest.filter (fun q => q ∉ c ++ [p]) = rest.filter (fun q => q ∉ c) := by
        apply List.filter_congr'
        intro q hq
        have hqp : q ≠ p := fun hc => (List.nodup_cons.mp hnd).1 (hc ▸ hq)
        simp [hqp]
      rw [hfeq]
      simp only [List.length_append, List.length_cons, List.length_nil]
      omega

lemma filter_map_length {α β} (l : List α) (f : α → β) (p : β → Bool) :
    ((l.map f).filter p).length = (l.filter (fun x => p (f x))).length := by
  rw [List.map_filter, List.length_map]
  rfl

/-- Marking the edges of `node` covered grows the covered set by
exactly `covCount` entries, provided `node` has no self-loop and its
adjacency rows are duplicate-free. -/
lemma markCovered_length (g : DiGraph) (covered : List (Nat × Nat)) (node : Nat)
    (hsucc : (g.successors_slice node).Nodup)
    (hpred : (g.predecessors_slice node).Nodup)
    (hself : node ∉ g.successors_slice node) :
    (markCovered g covered node).length = covered.length + covCount g covered node := by
  unfold markCovered
  have hf1 : (g.successors_slice node).foldl (fun c w => coverInsert c (node, w)) covered
      = ((g.successors_slice node).map (fun w => (node, w))).foldl coverInsert covered := by
    rw [List.foldl_map]
  have hf2 : ∀ c, (g.predecessors_slice node).foldl (fun c u => coverInsert c (u, node)) c
      = ((g.predecessors_slice node).map (fun u => (u, node))).foldl coverInsert c := by
    intro c
    rw [List.foldl_map]
  have hnd1 : ((g.successors_slice node).map (fun w => (node, w))).Nodup :=
    (List.nodup_map_iff_inj_on hsucc).mpr
      (fun a _ b _ hab => congrArg Prod.snd hab)
  have hnd2 : ((g.predecessors_slice node).map (fun u => (u, node))).Nodup :=
    (List.nodup_map_iff_inj_on hpred).mpr
      (fun a _ b _ hab => congrArg Prod.fst hab)
  rw [hf1, hf2]
  set c1 := ((g.successors_slice node).map (fun w => (node, w))).foldl coverInsert covered
    with hc1
  rw [coverInsert_fold_length _ hnd2 c1, hc1, coverInsert_fold_length _ hnd1 covered]
  have hl1 : (((g.successors_slice node).map (fun w => (node, w))).filter
        (fun p => p ∉ covered)).length
      = ((g.successors_slice node).filter (fun w => (node, w) ∉ covered)).length :=
    filter_map_length _ _ _
  have hl2 : (((g.predecessors_slice node).map (fun u => (u, node))).filter
        (fun p => p ∉ c1)).length
      = ((g.predecessors_slice node).filter (fun u => (u, node) ∉ covered)).length := by
    rw [filter_map_length]
    congr 1
    apply List.filter_congr'
    intro u hu
    have hmem : ((u, node) ∈ c1) ↔ ((u, node) ∈ covered) := by
      rw [hc1, coverInsert_fold_mem]
      constructor
      · rintro (h | h)
        · exact h
        · rw [List.mem_map] at h
          obtain ⟨w, hwm, hweq⟩ := h
          have hnu : node = u := congrArg Prod.fst hweq
          have hwn : w = node := congrArg Prod.snd hweq
          subst hwn
          exact absurd hwm (hnu ▸ hself)
      · exact Or.inl
    simp [hmem]
  rw [hl1, hl2]
  unfold covCount
  omega

lemma markCovered_mem (g : DiGraph) (covered : List (Nat × Nat)) (node : Nat)
    (q : Nat × Nat) (hq : q ∈ markCovered g covered node) :
    q ∈ covered ∨ (∃ w ∈ g.successors_slice node, q = (node, w)) ∨
      (∃ u ∈ g.predecessors_slice node, q = (u, node)) := by
  unfold markCovered at hq
  have hf1 : (g.successors_slice node).foldl (fun c w => coverInsert c (node, w)) covered
      = ((g.successors_slice node).map (fun w => (node, w))).foldl coverInsert covered := by
    rw [List.foldl_map]
  have hf2 : ∀ c, (g.predecessors_slice node).foldl (fun c u => coverInsert c (u, node)) c
      = ((g.predecessors_slice node).map (fun u => (u, node))).foldl coverInsert c := by
    intro c
    rw [List.foldl_map]
  rw [hf2, hf1] at hq
  rw [coverInsert_fold_mem] at hq
  rcases hq with hq | hq
  · rw [coverInsert_fold_mem] at hq
    rcases hq with hq | hq
    · exact Or.inl hq
    · rw [List.mem_map] at hq
      obtain ⟨w, hwm, hweq⟩ := hq
      exact Or.inr (Or.inl ⟨w, hwm, hweq.symm⟩)
  · rw [List.mem_map] at hq
    obtain ⟨u, hum, hueq⟩ := hq
    exact Or.inr (Or.inr ⟨u, hum, hueq.symm⟩)

lemma markCovered_nodup (g : DiGraph) (covered : List (Nat × Nat)) (node : Nat)
    (h : covered.Nodup) : (markCovered g covered node).Nodup := by
  unfold markCovered
  have hf1 : (g.successors_slice node).foldl (fun c w => coverInsert c (node, w)) covered
      = ((g.successors_slice node).map (fun w => (node, w))).foldl coverInsert covered := by
    rw [List.foldl_map]
  have hf2 : ∀ c, (g.predecessors_slice node).foldl (fun c u => coverInsert c (u, node)) c
      = ((g.predecessors_slice node).map (fun u => (u, node))).foldl coverInsert c := by
    intro c
    rw [List.foldl_map]
  rw [hf2, hf1]
  exact coverInsert_fold_nodup _ _ (coverInsert_fold_nodup _ _ h)

/-- The selection loop never covers more than all edges, for graphs
without self-loops. -/
lemma covLoop_ec_le (g : DiGraph) (hw : Wf g)
    (hnl : ∀ u, u ∉ g.successors_slice u) :
    ∀ (limit : Nat) (covered : List (Nat × Nat)) (sel : List CoverageItem) (ec : Nat),
      covered.Nodup → (∀ p ∈ covered, p ∈ g.edges) → ec = covered.length →
      (covLoop g limit covered sel ec).2 ≤ g.edges.length := by
  intro limit
  induction limit with
  | zero =>
    intro covered sel ec hnd hsub hec
    show ec ≤ _
    rw [hec]
    exact (List.subperm_of_subset hnd hsub).length_le
  | succ l ih =>
    intro covered sel ec hnd hsub hec
    unfold covLoop
    cases hbs : bestScan g covered g.node_count with
    | mk o bc =>
      cases o with
      | some node =>
        dsimp only
        by_cases hpos : 0 < bc
        · rw [if_pos hpos]
          obtain ⟨hlt, hbc, hge1, -, -⟩ :=
            ((bestScan_spec g covered g.node_count).2 node (by rw [hbs]))
          rw [hbs] at hbc
          have hltn : node < g.nodes.length := hlt
          obtain ⟨hal, hrl, -, hadjp, hrevp, hcons, -⟩ := hw
          have hsuccnd : (g.successors_slice node).Nodup := by
            unfold DiGraph.successors_slice
            exact (hadjp _ (getD_mem_of_lt g.adj [] node (by omega))).1
          have hprednd : (g.predecessors_slice node).Nodup := by
            unfold DiGraph.predecessors_slice
            exact (hrevp _ (getD_mem_of_lt g.rev_adj [] node (by omega))).1
          refine ih (markCovered g covered node)
            (sel ++ [{ node := node, edges_added := bc }]) (ec + bc)
            (markCovered_nodup g covered node hnd) ?_ ?_
          · intro p hp
            rcases markCovered_mem g covered node p hp with h | ⟨w, hwm, hpe⟩ | ⟨u, hum, hpe⟩
            · exact hsub p h
            · subst hpe
              rw [mem_edges]
              exact hwm
            · subst hpe
              rw [mem_edges]
              have hun : u < g.nodes.length := by
                unfold DiGraph.predecessors_slice at hum
                rw [mem_getD_nil_iff] at hum
                obtain ⟨li, hget, hul⟩ := hum
                exact (hrevp li (List.get?_mem hget)).2 u hul
              exact (hcons u hun node hltn).mpr hum
          · rw [markCovered_length g covered node hsuccnd hprednd (hnl node), hec]
            have hbc' : bc = covCount g covered node := hbc
            omega
        · rw [if_neg hpos]
          show ec ≤ _
          rw [hec]
          exact (List.subperm_of_subset hnd hsub).length_le
      | none =>
        dsimp only
        show ec ≤ _
        rw [hec]
        exact (List.subperm_of_subset hnd hsub).length_le

/-- The star graph with hub index 0 and `k` leaf indices `1..k`, edges
hub→leaf. -/
def starGraph (k : Nat) : DiGraph :=
  { nodes := "hub" :: (List.range k).map (fun i => "leaf" ++ toString i)
    adj := ((List.range k).map (fun i => i + 1)) :: List.replicate k []
    rev_adj := [] :: List.replicate k [0]
    edge_count := k }

lemma getD_replicate_lt {α} (n i : Nat) (a d : α) (h : i < n) :
    (List.replicate n a).getD i d = a := by
  show ((List.replicate n a).get? i).getD d = a
  rw [List.get?_eq_get (by simpa using h), List.get_replicate]
  rfl

lemma star_covCount_hub (k : Nat) : covCount (starGraph k) [] 0 = k := by
  unfold covCount starGraph DiGraph.successors_slice DiGraph.predecessors_slice
  simp

lemma star_covCount_leaf (k i : Nat) (h : i < k) :
    covCount (starGraph k) [] (i + 1) = 1 := by
  unfold covCount starGraph DiGraph.successors_slice DiGraph.predecessors_slice
  have h1 : ((((List.range k).map (fun i => i + 1)) :: List.replicate k []
      : List (List Nat))).getD (i + 1) [] = [] := by
    show (List.replicate k ([] : List Nat)).getD i [] = []
    exact getD_replicate k i []
  have h2 : (([] :: List.replicate k [0] : List (List Nat))).getD (i + 1) [] = [0] := by
    show (List.replicate k [0] : List (List Nat)).getD i [] = [0]
    exact getD_replicate_lt k i [0] [] h
  rw [h1, h2]
  simp

lemma scanFold_stays (g : DiGraph) (c : List (Nat × Nat)) (l : List Nat) :
    ∀ best : Option Nat × Nat, (∀ v ∈ l, covCount g c v ≤ best.2) →
      l.foldl (scanStep g c) best = best := by
  induction l with
  | nil => intro best _; rfl
  | cons v rest ih =>
    intro best h
    rw [List.foldl_cons]
    have hstep : scanStep g c best v = best := by
      unfold scanStep
      rw [if_neg (by have := h v (by simp); omega)]
    rw [hstep]
    exact ih best (fun w hw => h w (by simp [hw]))

lemma star_node_count (k : Nat) : (starGraph k).node_count = k + 1 := by
  unfold DiGraph.node_count starGraph
  simp

lemma star_bestScan (k : Nat) (hk : 1 ≤ k) :
    bestScan (starGraph k) [] ((starGraph k).node_count) = (some 0, k) := by
  rw [star_node_count]
  unfold bestScan
  rw [List.range_succ_eq_map, List.foldl_cons]
  have hstep : scanStep (starGraph k) [] (none, 0) 0 = (some 0, k) := by
    unfold scanStep
    have h2 : ((none : Option Nat), 0).2 = 0 := rfl
    rw [star_covCount_hub, h2, if_pos (by omega)]
  rw [hstep]
  apply scanFold_stays
  intro v hv
  rw [List.mem_map] at hv
  obtain ⟨i, hi, hieq⟩ := hv
  show covCount (starGraph k) [] v ≤ k
  rw [← hieq]
  show covCount (starGraph k) [] (i + 1) ≤ k
  rw [star_covCount_leaf k i (List.mem_range.mp hi)]
  omega

lemma star_first_pick (k : Nat) (hk : 1 ≤ k) (lim : Nat) (hl : 1 ≤ lim) :
    (coverage_set (starGraph k) lim).items.get? 0
      = some { node := 0, edges_added := k } := by
  unfold coverage_set
  have ht : (starGraph k).edge_count = k := rfl
  rw [if_neg (by rw [star_node_count, ht]; omega)]
  show (covLoop (starGraph k) lim [] [] 0).1.get? 0 = _
  obtain ⟨l, rfl⟩ : ∃ l, lim = l + 1 := ⟨lim - 1, by omega⟩
  unfold covLoop
  rw [star_bestScan k hk]
  dsimp only
  rw [if_pos (show 0 < k by omega)]
  obtain ⟨tail, htail⟩ := covLoop_selected_ext (starGraph k) l
    (markCovered (starGraph k) [] 0) ([] ++ [{ node := 0, edges_added := k }]) (0 + k)
  rw [htail]
  simp

/-- The single-node graph with a self-loop, built through the API. -/
def loop1 : DiGraph := build [.node "a", .edge 0 0]

/-- Counterexample to C4 as stated: on the self-loop graph the single
covered edge is counted once as outgoing and once as incoming, so
`edges_covered = 2` exceeds `total_edges = 1`. -/
theorem C4_counterexample :
    (coverage_set loop1 1).total_edges = 1 ∧
    (coverage_set loop1 1).edges_covered = 2 ∧
    ¬((coverage_set loop1 1).edges_covered ≤ (coverage_set loop1 1).total_edges) := by
  refine ⟨rfl, rfl, ?_⟩
  decide

/-- C4 (amended): `coverage_set` selects at most `limit` nodes; the
scan underlying each selection step returns the first index attaining
the maximal uncovered-incident count (ties to the smallest index); for
graphs without self-loops `edges_covered ≤ total_edges` (a self-loop is
counted twice, see the counterexample); and on the star graph with
`k ≥ 1` leaves and `limit ≥ 1` the first selection is the hub covering
its `k` edges. -/
theorem C4_coverage (g : DiGraph) (hw : Wf g) (limit : Nat) :
    (coverage_set g limit).items.length ≤ limit ∧
    (∀ covered : List (Nat × Nat), ∀ v : Nat,
      (bestScan g covered g.node_count).1 = some v →
        v < g.node_count ∧
        (bestScan g covered g.node_count).2 = covCount g covered v ∧
        1 ≤ covCount g covered v ∧
        (∀ w < g.node_count, covCount g covered w ≤ covCount g covered v) ∧
        (∀ w < v, covCount g covered w < covCount g covered v)) ∧
    ((∀ u, u ∉ g.successors_slice u) →
      (coverage_set g limit).edges_covered ≤ (coverage_set g limit).total_edges) ∧
    (∀ k, 1 ≤ k → ∀ lim, 1 ≤ lim →
      (coverage_set (starGraph k) lim).items.get? 0
        = some { node := 0, edges_added := k }) := by
  refine ⟨?_, ?_, ?_, ?_⟩
  · unfold coverage_set
    by_cases hbr : g.node_count = 0 ∨ g.edge_count = 0
    · rw [if_pos hbr]
      simp
    · rw [if_neg hbr]
      show (covLoop g limit [] [] 0).1.length ≤ limit
      have := covLoop_length g limit [] [] 0
      simpa using this
  · intro covered v hv
    exact (bestScan_spec g covered g.node_count).2 v hv
  · intro hnl
    unfold coverage_set
    by_cases hbr : g.node_count = 0 ∨ g.edge_count = 0
    · rw [if_pos hbr]
      simp
    · rw [if_neg hbr]
      show (covLoop g limit [] [] 0).2 ≤ g.edge_count
      rw [← edges_length hw]
      exact covLoop_ec_le g hw hnl limit [] [] 0 List.nodup_nil (by simp) rfl
  · intro k hk lim hl
    exact star_first_pick k hk lim hl

/-- Witness for C4 at the concrete path graph with limit 2. -/
theorem C4_coverage_witness :
    (coverage_set path3 2).items.length ≤ 2 ∧
    (∀ covered : List (Nat × Nat), ∀ v : Nat,
      (bestScan path3 covered path3.node_count).1 = some v →
        v < path3.node_count ∧
        (bestScan path3 covered path3.node_count).2 = covCount path3 covered v ∧
        1 ≤ covCount path3 covered v ∧
        (∀ w < path3.node_count, covCount path3 covered w ≤ covCount path3 covered v) ∧
        (∀ w < v, covCount path3 covered w < covCount path3 covered v)) ∧
    ((∀ u, u ∉ path3.successors_slice u) →
      (coverage_set path3 2).edges_covered ≤ (coverage_set path3 2).total_edges) ∧
    (∀ k, 1 ≤ k → ∀ lim, 1 ≤ lim →
      (coverage_set (starGraph k) lim).items.get? 0
        = some { node := 0, edges_added := k }) :=
  C4_coverage path3 (by decide) 2

/-! ## Articulation points and bridges (`articulation.rs`)

Tarjan's DFS on the undirected view.  Rust's per-node `HashSet`s in
`build_undirected_neighbors` iterate in unspecified order; first-
insertion order is fixed here, and the properties proved are
order-insensitive (sets of results).  The recursive DFS takes a fuel
parameter; the entry points pass `n + 1`, which exceeds the recursion
depth (each nested call visits a previously unvisited node).  The
`usize::MAX` parent sentinel is `none`. -/

/-- One `neighbors[a].insert(b)` (HashSet insert, modelled in
insertion order). -/
def undirectedInsert (nb : List (List Nat)) (a b : Nat) : List (List Nat) :=
  if b ∈ nb.getD a [] then nb else nb.set a (nb.getD a [] ++ [b])

/-- `build_undirected_neighbors` (articulation.rs line 116): for every
directed edge `u→v` with `u ≠ v`, insert `v` into `neighbors[u]` and
`u` into `neighbors[v]`; self-loops are skipped. -/
def build_undirected_neighbors (g : DiGraph) : List (List Nat) :=
  (List.range g.nodes.length).foldl
    (fun nb u =>
      (g.successors_slice u).foldl
        (fun nb v =>
          if u ≠ v then undirectedInsert (undirectedInsert nb u v) v u else nb)
        nb)
    (List.replicate g.nodes.length [])

/-- Mutable state of `tarjan_dfs` (articulation.rs lines 39–44). -/
structure ApSt where
  disc : List Nat
  low : List Nat
  parent : List (Option Nat)
  visited : List Bool
  is_ap : List Bool
  time : Nat
  deriving Repr, DecidableEq

/-- The `for &u in &neighbors[v]` loop of `tarjan_dfs` (articulation.rs
lines 87–112), carrying the `children` counter; `dfsf` is the recursive
call at the next depth. -/
def tarjanGo (dfsf : Nat → ApSt → ApSt) (v : Nat) :
    List Nat → ApSt → Nat → ApSt
  | [], st, _ => st
  | u :: rest, st, children =>
      if st.visited.getD u false = false then
        let children := children + 1
        let st1 : ApSt := { st with parent := st.parent.set u (some v) }
        let st2 := dfsf u st1
        let st3 : ApSt :=
          { st2 with low := st2.low.set v (min (st2.low.getD v 0) (st2.low.getD u 0)) }
        let st4 : ApSt :=
          if st3.parent.getD v none = none ∧ 1 < children
          then { st3 with is_ap := st3.is_ap.set v true } else st3
        let st5 : ApSt :=
          if st4.parent.getD v none ≠ none ∧ st4.disc.getD v 0 ≤ st4.low.getD u 0
          then { st4 with is_ap := st4.is_ap.set v true } else st4
        tarjanGo dfsf v rest st5 children
      else if some u ≠ st.parent.getD v none then
        tarjanGo dfsf v rest
          { st with low := st.low.set v (min (st.low.getD v 0) (st.disc.getD u 0)) }
          children
      else
        tarjanGo dfsf v rest st children

/-- `tarjan_dfs` (articulation.rs line 71), structurally recursive on
the fuel (the entry point passes `n + 1`, exceeding the DFS depth). -/
def tarjan_dfs (neighbors : List (List Nat)) : Nat → Nat → ApSt → ApSt
  | 0, _, st => st
  | fuel + 1, v, st =>
      let t := st.time + 1
      let st1 : ApSt :=
        { st with visited := st.visited.set v true, time := t,
                  disc := st.disc.set v t, low := st.low.set v t }
      tarjanGo (fun u st => tarjan_dfs neighbors fuel u st) v
        (neighbors.getD v []) st1 0

/-- `articulation_points` (articulation.rs line 29). -/
def articulation_points (g : DiGraph) : List Nat :=
  let n := g.nodes.length
  if n = 0 then []
  else
    let neighbors := build_undirected_neighbors g
    let st0 : ApSt :=
      ⟨List.replicate n 0, List.replicate n 0, List.replicate n none,
       List.replicate n false, List.replicate n false, 0⟩
    let stF := (List.range n).foldl
      (fun st start =>
        if st.visited.getD start false then st
        else tarjan_dfs neighbors (n + 1) start st) st0
    (stF.is_ap.enum.filter (fun p => p.2)).map (fun p => p.1)

/-- Mutable state of `bridge_dfs` (articulation.rs lines 144–149). -/
structure BrSt where
  disc : List Nat
  low : List Nat
  parent : List (Option Nat)
  visited : List Bool
  bridges : List (Nat × Nat)
  time : Nat
  deriving Repr, DecidableEq

/-- The `for &u in &neighbors[v]` loop of `bridge_dfs` (articulation.rs
lines 185–199); `dfsf` is the recursive call at the next depth. -/
def bridgeGo (dfsf : Nat → BrSt → BrSt) (v : Nat) : List Nat → BrSt → BrSt
  | [], st => st
  | u :: rest, st =>
      if st.visited.getD u false = false then
        let st1 : BrSt := { st with parent := st.parent.set u (some v) }
        let st2 := dfsf u st1
        let st3 : BrSt :=
          { st2 with low := st2.low.set v (min (st2.low.getD v 0) (st2.low.getD u 0)) }
        let st4 : BrSt :=
          if st3.disc.getD v 0 < st3.low.getD u 0
          then { st3 with bridges := st3.bridges ++ [(min v u, max v u)] } else st3
        bridgeGo dfsf v rest st4
      else if some u ≠ st.parent.getD v none then
        bridgeGo dfsf v rest
          { st with low := st.low.set v (min (st.low.getD v 0) (st.disc.getD u 0)) }
      else
        bridgeGo dfsf v rest st

/-- `bridge_dfs` (articulation.rs line 170), structurally recursive on
the fuel. -/
def bridge_dfs (neighbors : List (List Nat)) : Nat → Nat → BrSt → BrSt
  | 0, _, st => st
  | fuel + 1, v, st =>
      let t := st.time + 1
      let st1 : BrSt :=
        { st with visited := st.visited.set v true, time := t,
                  disc := st.disc.set v t, low := st.low.set v t }
      bridgeGo (fun u st => bridge_dfs neighbors fuel u st) v
        (neighbors.getD v []) st1

/-- `bridges` (articulation.rs line 136). -/
def bridges (g : DiGraph) : List (Nat × Nat) :=
  let n := g.nodes.length
  if n = 0 then []
  else
    let neighbors := build_undirected_neighbors g
    let st0 : BrSt :=
      ⟨List.replicate n 0, List.replicate n 0, List.replicate n none,
       List.replicate n false, [], 0⟩
    let stF := (List.range n).foldl
      (fun st start =>
        if st.visited.getD start false then st
        else bridge_dfs neighbors (n + 1) start st) st0
    stF.bridges

/-- C2: the 3-node path a→b→c has exactly the middle node as its
articulation point, and exactly the two edges (a,b) and (b,c) (in
canonical index order) as its bridges. -/
theorem C2_path3 :
    articulation_points path3 = [1] ∧
    (bridges path3).Perm [(0, 1), (1, 2)] := by
  constructor
  · decide
  · decide

/-! ## C8: graphs with no edges -/

lemma succ_empty_of_no_edges {g : DiGraph} (hw : Wf g) (h0 : g.edge_count = 0) :
    ∀ u, g.successors_slice u = [] := by
  intro u
  obtain ⟨hal, -, -, -, -, -, hcnt⟩ := hw
  rw [h0] at hcnt
  have hall : ∀ l ∈ g.adj, l.length = 0 := by
    intro l hl
    have := (List.sum_eq_zero_iff.mp hcnt.symm) l.length (List.mem_map_of_mem _ hl)
    exact this
  unfold DiGraph.successors_slice
  by_cases hu : u < g.adj.length
  · exact List.length_eq_zero.mp (hall _ (getD_mem_of_lt g.adj [] u hu))
  · exact getD_of_length_le _ _ _ (by omega)

lemma neighbors_empty_of_no_edges {g : DiGraph} (hw : Wf g) (h0 : g.edge_count = 0) :
    build_undirected_neighbors g = List.replicate g.nodes.length [] := by
  unfold build_undirected_neighbors
  have hconst : ∀ (l : List Nat) (nb : List (List Nat)),
      l.foldl (fun nb u =>
        (g.successors_slice u).foldl
          (fun nb v =>
            if u ≠ v then undirectedInsert (undirectedInsert nb u v) v u else nb) nb) nb
      = nb := by
    intro l
    induction l with
    | nil => intro nb; rfl
    | cons u rest ih =>
      intro nb
      rw [List.foldl_cons, succ_empty_of_no_edges hw h0 u]
      exact ih nb
  rw [hconst]

lemma tarjan_dfs_is_ap_of_empty {neighbors : List (List Nat)}
    (hemp : ∀ v, neighbors.getD v [] = []) :
    ∀ (fuel v : Nat) (st : ApSt),
      (tarjan_dfs neighbors fuel v st).is_ap = st.is_ap := by
  intro fuel v st
  cases fuel with
  | zero => rfl
  | succ f =>
    show (tarjanGo _ v (neighbors.getD v []) _ 0).is_ap = _
    rw [hemp v]
    rfl

lemma bridge_dfs_bridges_of_empty {neighbors : List (List Nat)}
    (hemp : ∀ v, neighbors.getD v [] = []) :
    ∀ (fuel v : Nat) (st : BrSt),
      (bridge_dfs neighbors fuel v st).bridges = st.bridges := by
  intro fuel v st
  cases fuel with
  | zero => rfl
  | succ f =>
    show (bridgeGo _ v (neighbors.getD v []) _).bridges = _
    rw [hemp v]
    rfl

/-- C8: a well-formed graph with zero edges (in particular a single
isolated node or the empty graph) has no articulation points, no
bridges, and coverage ratio 1. -/
theorem C8_zero_edges (g : DiGraph) (hw : Wf g) (h0 : g.edge_count = 0) (limit : Nat) :
    articulation_points g = [] ∧ bridges g = [] ∧
    (coverage_set g limit).coverage_ratio = 1 := by
  have hemp : ∀ v, (build_undirected_neighbors g).getD v [] = [] := by
    intro v
    rw [neighbors_empty_of_no_edges hw h0]
    exact getD_replicate _ _ _
  refine ⟨?_, ?_, ?_⟩
  · unfold articulation_points
    by_cases hn : g.nodes.length = 0
    · rw [if_pos hn]
    · rw [if_neg hn]
      have hfold : ∀ (l : List Nat) (st : ApSt),
          ((l.foldl (fun st start =>
            if st.visited.getD start false then st
            else tarjan_dfs (build_undirected_neighbors g) (g.nodes.length + 1) start st)
            st).is_ap) = st.is_ap := by
        intro l
        induction l with
        | nil => intro st; rfl
        | cons x rest ih =>
          intro st
          rw [List.foldl_cons]
          rw [ih]
          by_cases hv : st.visited.getD x false
          · rw [if_pos hv]
          · rw [if_neg hv]
            exact tarjan_dfs_is_ap_of_empty hemp _ _ _
      dsimp only
      rw [hfold]
      have hfil : ((List.replicate g.nodes.length false).enum.filter
          (fun p => p.2)) = [] := by
        rw [List.filter_eq_nil]
        intro p hp
        have hsnd : p.2 ∈ List.replicate g.nodes.length false := by
          have := List.mk_mem_enum_iff_get?.mp (show (p.1, p.2) ∈ _ from hp)
          exact List.get?_mem this
        rw [List.eq_of_mem_replicate hsnd]
        simp
      rw [hfil]
      rfl
  · unfold bridges
    by_cases hn : g.nodes.length = 0
    · rw [if_pos hn]
    · rw [if_neg hn]
      have hfold : ∀ (l : List Nat) (st : BrSt),
          ((l.foldl (fun st start =>
            if st.visited.getD start false then st
            else bridge_dfs (build_undirected_neighbors g) (g.nodes.length + 1) start st)
            st).bridges) = st.bridges := by
        intro l
        induction l with
        | nil => intro st; rfl
        | cons x rest ih =>
          intro st
          rw [List.foldl_cons]
          rw [ih]
          by_cases hv : st.visited.getD x false
          · rw [if_pos hv]
          · rw [if_neg hv]
            exact bridge_dfs_bridges_of_empty hemp _ _ _
      dsimp only
      rw [hfold]
  · unfold coverage_set
    rw [if_pos (Or.inr h0)]
    show (if g.edge_count = 0 then (1 : ℚ) else 0) = 1
    rw [if_pos h0]

/-- The single isolated node, built through the API. -/
def single1 : DiGraph := build [.node "a"]

/-- Witness for C8: the single isolated node and the empty graph. -/
theorem C8_zero_edges_witness :
    (articulation_points single1 = [] ∧ bridges single1 = [] ∧
      (coverage_set single1 5).coverage_ratio = 1) ∧
    (articulation_points DiGraph.new = [] ∧ bridges DiGraph.new = [] ∧
      (coverage_set DiGraph.new 5).coverage_ratio = 1) :=
  ⟨C8_zero_edges single1 (by decide) (by decide) 5,
   C8_zero_edges DiGraph.new (by decide) (by decide) 5⟩

/-! ## C3: canonical order and the bridge condition

For the second half of C3 ("a tree edge (parent v, child u) is
reported iff low(u) > disc(v)") the bridge DFS is instrumented with a
ghost trace: `BrTr` is `BrSt` plus a `checks` field recording, for
every tree-edge return, the compared values `disc[v]` and `low[u]`.
The ghost field influences nothing else; an erasure lemma shows the
instrumented run coincides with `bridge_dfs` on all real fields. -/

lemma bridgeGo_canon (dfsf : Nat → BrSt → BrSt)
    (hdfs : ∀ u st, (∀ p ∈ st.bridges, p.1 ≤ p.2) →
      ∀ p ∈ (dfsf u st).bridges, p.1 ≤ p.2) (v : Nat) :
    ∀ (ns : List Nat) (st : BrSt), (∀ p ∈ st.bridges, p.1 ≤ p.2) →
      ∀ p ∈ (bridgeGo dfsf v ns st).bridges, p.1 ≤ p.2 := by
  intro ns
  induction ns with
  | nil => intro st h; exact h
  | cons u rest ih =>
    intro st h
    show ∀ p ∈ (bridgeGo dfsf v (u :: rest) st).bridges, p.1 ≤ p.2
    unfold bridgeGo
    by_cases hvis : st.visited.getD u false = false
    · rw [if_pos hvis]
      apply ih
      intro p hp
      dsimp only at hp
      split at hp
      · rcases List.mem_append.mp hp with h1 | h1
        · exact hdfs u { st with parent := st.parent.set u (some v) } h p h1
        · rw [List.mem_singleton] at h1
          subst h1
          exact min_le_max
      · exact hdfs u { st with parent := st.parent.set u (some v) } h p hp
    · rw [if_neg hvis]
      split
      · exact ih _ h
      · exact ih _ h

lemma bridge_dfs_canon (neighbors : List (List Nat)) :
    ∀ (fuel v : Nat) (st : BrSt), (∀ p ∈ st.bridges, p.1 ≤ p.2) →
      ∀ p ∈ (bridge_dfs neighbors fuel v st).bridges, p.1 ≤ p.2 := by
  intro fuel
  induction fuel with
  | zero => intro v st h; exact h
  | succ f ih =>
    intro v st h
    show ∀ p ∈ (bridgeGo _ v (neighbors.getD v []) _).bridges, p.1 ≤ p.2
    exact bridgeGo_canon _ (fun u st' h' => ih u st' h') v _ _ h

/-- A recorded tree-edge comparison of the bridge DFS: returning from
child `u` to DFS-parent `v`, the values `disc[v]` and `low[u]` that the
bridge condition compares. -/
structure BridgeCheck where
  v : Nat
  u : Nat
  disc_v : Nat
  low_u : Nat
  deriving Repr, DecidableEq

/-- `BrSt` with the ghost `checks` trace. -/
structure BrTr where
  disc : List Nat
  low : List Nat
  parent : List (Option Nat)
  visited : List Bool
  bridges : List (Nat × Nat)
  time : Nat
  checks : List BridgeCheck
  deriving Repr, DecidableEq

/-- Forget the ghost trace. -/
def eraseTr (st : BrTr) : BrSt :=
  ⟨st.disc, st.low, st.parent, st.visited, st.bridges, st.time⟩

/-- `bridgeGo` with the ghost trace: identical to `bridgeGo` except
that each tree-edge return also appends its comparison to `checks`. -/
def bridgeGoTr (dfsf : Nat → BrTr → BrTr) (v : Nat) : List Nat → BrTr → BrTr
  | [], st => st
  | u :: rest, st =>
      if st.visited.getD u false = false then
        let st1 : BrTr := { st with parent := st.parent.set u (some v) }
        let st2 := dfsf u st1
        let st3 : BrTr :=
          { st2 with low := st2.low.set v (min (st2.low.getD v 0) (st2.low.getD u 0)) }
        let st3' : BrTr :=
          { st3 with checks := st3.checks ++ [⟨v, u, st3.disc.getD v 0, st3.low.getD u 0⟩] }
        let st4 : BrTr :=
          if st3'.disc.getD v 0 < st3'.low.getD u 0
          then { st3' with bridges := st3'.bridges ++ [(min v u, max v u)] } else st3'
        bridgeGoTr dfsf v rest st4
      else if some u ≠ st.parent.getD v none then
        bridgeGoTr dfsf v rest
          { st with low := st.low.set v (min (st.low.getD v 0) (st.disc.getD u 0)) }
      else
        bridgeGoTr dfsf v rest st

/-- `bridge_dfs` with the ghost trace. -/
def bridge_dfsTr (neighbors : List (List Nat)) : Nat → Nat → BrTr → BrTr
  | 0, _, st => st
  | fuel + 1, v, st =>
      let t := st.time + 1
      let st1 : BrTr :=
        { st with visited := st.visited.set v true, time := t,
                  disc := st.disc.set v t, low := st.low.set v t }
      bridgeGoTr (fun u st => bridge_dfsTr neighbors fuel u st) v
        (neighbors.getD v []) st1

/-- The final instrumented state of the `bridges` computation. -/
def bridgesTrRun (g : DiGraph) : BrTr :=
  let n := g.nodes.length
  if n = 0 then ⟨[], [], [], [], [], 0, []⟩
  else
    let neighbors := build_undirected_neighbors g
    let st0 : BrTr :=
      ⟨List.replicate n 0, List.replicate n 0, List.replicate n none,
       List.replicate n false, [], 0, []⟩
    (List.range n).foldl
      (fun st start =>
        if st.visited.getD start false then st
        else bridge_dfsTr neighbors (n + 1) start st) st0

/-- The tree-edge comparisons performed while computing `bridges g`. -/
def bridge_checks (g : DiGraph) : List BridgeCheck := (bridgesTrRun g).checks

lemma bridgeGoTr_erase (dfsfT : Nat → BrTr → BrTr) (dfsf : Nat → BrSt → BrSt)
    (hag : ∀ u st, eraseTr (dfsfT u st) = dfsf u (eraseTr st)) (v : Nat) :
    ∀ (ns : List Nat) (st : BrTr),
      eraseTr (bridgeGoTr dfsfT v ns st) = bridgeGo dfsf v ns (eraseTr st) := by
  intro ns
  induction ns with
  | nil => intro st; rfl
  | cons u rest ih =>
    rintro ⟨d, lo, pa, vi, br, ti, ck⟩
    show eraseTr (bridgeGoTr dfsfT v (u :: rest) ⟨d, lo, pa, vi, br, ti, ck⟩)
      = bridgeGo dfsf v (u :: rest) ⟨d, lo, pa, vi, br, ti⟩
    unfold bridgeGoTr bridgeGo
    dsimp only
    by_cases hvis : vi.getD u false = false
    · rw [if_pos hvis, if_pos hvis]
      have h2 := hag u ⟨d, lo, pa.set u (some v), vi, br, ti, ck⟩
      dsimp only [eraseTr] at h2
      rw [← h2]
      rw [ih]
      rw [apply_ite eraseTr]
      rfl
    · rw [if_neg hvis, if_neg hvis]
      by_cases hpar : some u ≠ pa.getD v none
      · rw [if_pos hpar, if_pos hpar]
        exact ih _
      · rw [if_neg hpar, if_neg hpar]
        exact ih _

lemma bridge_dfsTr_erase (neighbors : List (List Nat)) :
    ∀ (fuel v : Nat) (st : BrTr),
      eraseTr (bridge_dfsTr neighbors fuel v st)
        = bridge_dfs neighbors fuel v (eraseTr st) := by
  intro fuel
  induction fuel with
  | zero => intro v st; rfl
  | succ f ih =>
    intro v st
    show eraseTr (bridgeGoTr _ v (neighbors.getD v []) _)
      = bridgeGo _ v (neighbors.getD v []) _
    exact bridgeGoTr_erase _ _ (fun u st' => ih u st') v _ _

/-- The bridges reported by a list of checks: those with
`low(u) > disc(v)`, each in canonical `(min, max)` order. -/
def checksF (cs : List BridgeCheck) : List (Nat × Nat) :=
  (cs.filter (fun c => c.disc_v < c.low_u)).map (fun c => (min c.v c.u, max c.v c.u))

lemma checksF_append (cs ds : List BridgeCheck) :
    checksF (cs ++ ds) = checksF cs ++ checksF ds := by
  unfold checksF
  rw [List.filter_append, List.map_append]

lemma bridgeGoTr_inv (dfsfT : Nat → BrTr → BrTr)
    (hdfs : ∀ u st, st.bridges = checksF st.checks →
      (dfsfT u st).bridges = checksF (dfsfT u st).checks) (v : Nat) :
    ∀ (ns : List Nat) (st : BrTr), st.bridges = checksF st.checks →
      (bridgeGoTr dfsfT v ns st).bridges = checksF (bridgeGoTr dfsfT v ns st).checks := by
  intro ns
  induction ns with
  | nil => intro st h; exact h
  | cons u rest ih =>
    intro st h
    show (bridgeGoTr dfsfT v (u :: rest) st).bridges = _
    unfold bridgeGoTr
    by_cases hvis : st.visited.getD u false = false
    · rw [if_pos hvis]
      apply ih
      dsimp only
      set st2T := dfsfT u { st with parent := st.parent.set u (some v) } with hst2T
      have h2 : st2T.bridges = checksF st2T.checks := hdfs u _ h
      by_cases hcond : st2T.disc.getD v 0
          < (st2T.low.set v (min (st2T.low.getD v 0) (st2T.low.getD u 0))).getD u 0
      · rw [if_pos hcond]
        show st2T.bridges ++ [(min v u, max v u)]
          = checksF (st2T.checks ++ [⟨v, u, st2T.disc.getD v 0,
              (st2T.low.set v (min (st2T.low.getD v 0) (st2T.low.getD u 0))).getD u 0⟩])
        rw [checksF_append, h2]
        congr 1
        show _ = checksF [⟨v, u, st2T.disc.getD v 0, _⟩]
        unfold checksF
        rw [List.filter_cons]
        simp only [List.filter_nil]
        rw [if_pos (by simpa using hcond)]
        rfl
      · rw [if_neg hcond]
        show st2T.bridges
          = checksF (st2T.checks ++ [⟨v, u, st2T.disc.getD v 0,
              (st2T.low.set v (min (st2T.low.getD v 0) (st2T.low.getD u 0))).getD u 0⟩])
        rw [checksF_append, h2]
        have : checksF [⟨v, u, st2T.disc.getD v 0,
            (st2T.low.set v (min (st2T.low.getD v 0) (st2T.low.getD u 0))).getD u 0⟩] = [] := by
          unfold checksF
          rw [List.filter_cons]
          simp only [List.filter_nil]
          rw [if_neg (by simpa using hcond)]
          rfl
        rw [this, List.append_nil]
    · rw [if_neg hvis]
      split
      · exact ih _ h
      · exact ih _ h

lemma bridge_dfsTr_inv (neighbors : List (List Nat)) :
    ∀ (fuel v : Nat) (st : BrTr), st.bridges = checksF st.checks →
      (bridge_dfsTr neighbors fuel v st).bridges
        = checksF (bridge_dfsTr neighbors fuel v st).checks := by
  intro fuel
  induction fuel with
  | zero => intro v st h; exact h
  | succ f ih =>
    intro v st h
    show (bridgeGoTr _ v (neighbors.getD v []) _).bridges = _
    exact bridgeGoTr_inv _ (fun u st' h' => ih u st' h') v _ _ h

/-- C3: every reported bridge pair is in canonical `(min, max)` index
order, and the bridge list is exactly the tree edges (DFS-parent `v`,
child `u`) whose recorded comparison satisfies `low(u) > disc(v)`,
canonicalised — i.e. a tree edge is reported iff `low(u) > disc(v)`. -/
lemma bridges_fold_erase (neighbors : List (List Nat)) (fuel : Nat) (l : List Nat) :
    ∀ st : BrTr,
      eraseTr (l.foldl (fun st start =>
          if st.visited.getD start false then st
          else bridge_dfsTr neighbors fuel start st) st)
        = l.foldl (fun st start =>
            if st.visited.getD start false then st
            else bridge_dfs neighbors fuel start st) (eraseTr st) := by
  induction l with
  | nil => intro st; rfl
  | cons x rest ih =>
    intro st
    rw [List.foldl_cons, List.foldl_cons]
    by_cases hv : st.visited.getD x false
    · rw [if_pos hv, if_pos (show (eraseTr st).visited.getD x false from hv)]
      exact ih st
    · rw [if_neg hv, if_neg (show ¬(eraseTr st).visited.getD x false from hv)]
      rw [ih, bridge_dfsTr_erase]

lemma bridges_fold_inv (neighbors : List (List Nat)) (fuel : Nat) (l : List Nat) :
    ∀ st : BrTr, st.bridges = checksF st.checks →
      ((l.foldl (fun st start =>
          if st.visited.getD start false then st
          else bridge_dfsTr neighbors fuel start st) st)).bridges
        = checksF ((l.foldl (fun st start =>
            if st.visited.getD start false then st
            else bridge_dfsTr neighbors fuel start st) st)).checks := by
  induction l with
  | nil => intro st h; exact h
  | cons x rest ih =>
    intro st h
    rw [List.foldl_cons]
    by_cases hv : st.visited.getD x false
    · rw [if_pos hv]
      exact ih st h
    · rw [if_neg hv]
      exact ih _ (bridge_dfsTr_inv neighbors fuel x st h)

/-- C3: every reported bridge pair is in canonical `(min, max)` index
order, and the bridge list is exactly the tree edges (DFS-parent `v`,
child `u`) whose recorded comparison satisfies `low(u) > disc(v)`,
canonicalised — i.e. a tree edge is reported as a bridge iff
`low(u) > disc(v)`. -/
theorem C3_bridge_condition (g : DiGraph) :
    (∀ p ∈ bridges g, p.1 ≤ p.2) ∧
    bridges g = ((bridge_checks g).filter (fun c => c.disc_v < c.low_u)).map
      (fun c => (min c.v c.u, max c.v c.u)) := by
  have hbr : bridges g = (bridgesTrRun g).bridges := by
    unfold bridges bridgesTrRun
    by_cases hn : g.nodes.length = 0
    · rw [if_pos hn, if_pos hn]
    · rw [if_neg hn, if_neg hn]
      dsimp only
      exact congrArg BrSt.bridges (bridges_fold_erase (build_undirected_neighbors g)
        (g.nodes.length + 1) (List.range g.nodes.length)
        ⟨List.replicate g.nodes.length 0, List.replicate g.nodes.length 0,
         List.replicate g.nodes.length none, List.replicate g.nodes.length false,
         [], 0, []⟩).symm
  constructor
  · unfold bridges
    by_cases hn : g.nodes.length = 0
    · rw [if_pos hn]
      intro p hp
      exact absurd hp (by simp)
    · rw [if_neg hn]
      dsimp only
      have hfold : ∀ (l : List Nat) (st : BrSt), (∀ p ∈ st.bridges, p.1 ≤ p.2) →
          ∀ p ∈ (l.foldl (fun st start =>
              if st.visited.getD start false then st
              else bridge_dfs (build_undirected_neighbors g) (g.nodes.length + 1) start st)
              st).bridges, p.1 ≤ p.2 := by
        intro l
        induction l with
        | nil => intro st h; exact h
        | cons x rest ih =>
          intro st h
          rw [List.foldl_cons]
          by_cases hv : st.visited.getD x false
          · rw [if_pos hv]
            exact ih st h
          · rw [if_neg hv]
            exact ih _ (bridge_dfs_canon _ _ x st h)
      exact hfold _ _ (by intro p hp; exact absurd hp (by simp))
  · rw [hbr]
    show (bridgesTrRun g).bridges = checksF (bridge_checks g)
    unfold bridge_checks
    unfold bridgesTrRun
    by_cases hn : g.nodes.length = 0
    · rw [if_pos hn]
      rfl
    · rw [if_neg hn]
      dsimp only
      exact bridges_fold_inv _ _ _ _ rfl

end B9S
